import Mathlib

/-!
Verification of the label-placement core of the map-generator repository.

The definitions below are a shallow embedding of the JavaScript sources:
* `src/js/labeler.js` — the simulated-annealing label placer (energy
  function, translation/rotation perturbations, hard-wall clamping,
  Metropolis acceptance, sweep loop, geometry primitives), and
* `src/js/llmMapGenerator.js` (`renderMap`) — capital deduplication
  ("conflict resolver"), the 8-position candidate generator, and the
  deterministic candidate-scoring pass.

JavaScript numbers are modelled as real numbers; `Math.random()` draws are
modelled as an explicit stream of reals in `[0, 1)`.  The one place where
IEEE semantics is observable — division by a zero denominator inside the
`intersect` leader-line test — is modelled explicitly by `JSNum`
(finite / +Infinity / -Infinity / NaN) with JavaScript comparison rules.
-/

namespace MapGen

open Classical

/-! ## State of the annealer (src/js/labeler.js) -/

/-- A movable label, as in the `lab` array of `d3.labeler`. -/
structure Lab where
  x : ℝ
  y : ℝ
  width : ℝ
  height : ℝ

/-- An anchor (`anc` array): marker position and radius. -/
structure Anc where
  x : ℝ
  y : ℝ
  r : ℝ

/-- A fixed obstacle (`fixedAnchors` array): an axis-aligned rectangle. -/
structure FixedA where
  x : ℝ
  y : ℝ
  width : ℝ
  height : ℝ

/-- The mutable state captured by the `d3.labeler` closure: label list,
anchor list, fixed obstacles, the bounding box `w × h`, and the
accepted/rejected move counters `acc`/`rej`. -/
structure LState where
  lab : List Lab
  anc : List Anc
  fixedAnchors : List FixedA
  w : ℝ
  h : ℝ
  acc : ℕ
  rej : ℕ

/-- `max_move = 3.0` (labeler.js line 17). -/
def max_move : ℝ := 3.0

/-- `max_angle = 0.3` (labeler.js line 18). -/
def max_angle : ℝ := 0.3

/-- `w_len = 0.3`, leader-line length weight. -/
def w_len : ℝ := 0.3

/-- `w_inter = 0.0`, leader-line intersection weight (disabled). -/
def w_inter : ℝ := 0.0

/-- `w_lab2 = 5.0`, label-label overlap weight. -/
def w_lab2 : ℝ := 5.0

/-- `w_lab_anc = 10.0`, label-anchor overlap weight. -/
def w_lab_anc : ℝ := 10.0

/-- `w_fixed = 100.0`, fixed-obstacle overlap weight. -/
def w_fixed : ℝ := 100.0

/-- `w_leader_cross = 0.0`, leader-crossing weight (disabled). -/
def w_leader_cross : ℝ := 0.0

/-! ## Geometry primitives -/

/-- Overlap area of two axis-aligned rectangles, exactly as computed in
labeler.js lines 68-70 (and in the deterministic scorer):
`max(0, min(x12,x22) - max(x11,x21)) * max(0, min(y12,y22) - max(y11,y21))`. -/
noncomputable def overlapArea (ax1 ay1 ax2 ay2 bx1 by1 bx2 by2 : ℝ) : ℝ :=
  max 0 (min ax2 bx2 - max ax1 bx1) * max 0 (min ay2 by2 - max ay1 by1)

/-- A JavaScript number that can arise from dividing one finite value by
another: finite, `+Infinity`, `-Infinity`, or `NaN`. -/
inductive JSNum where
  | fin : ℝ → JSNum
  | pinf : JSNum
  | ninf : JSNum
  | nan : JSNum

/-- JavaScript division of finite `a` by finite `b`: ordinary division when
`b ≠ 0`; `NaN` for `0/0`; signed infinities for `a/0`, `a ≠ 0`.  (JavaScript
also has a negative zero whose division flips the infinity's sign; the
comparisons `JSNum.ltNum`/`JSNum.gtNum` below give the same truth value for
`pinf` vs `ninf` in every use in `intersect`, so conflating `±0` is sound.) -/
noncomputable def jsdiv (a b : ℝ) : JSNum :=
  if b = 0 then (if a = 0 then .nan else if 0 < a then .pinf else .ninf)
  else .fin (a / b)

/-- JavaScript `v < c` for a division result `v`; comparisons with `NaN` are
false. -/
def JSNum.ltNum : JSNum → ℝ → Prop
  | .fin x, c => x < c
  | .pinf, _ => False
  | .ninf, _ => True
  | .nan, _ => False

/-- JavaScript `v > c` for a division result `v`; comparisons with `NaN` are
false. -/
def JSNum.gtNum : JSNum → ℝ → Prop
  | .fin x, c => c < x
  | .pinf, _ => True
  | .ninf, _ => False
  | .nan, _ => False

/-- The `intersect` leader-line segment test of labeler.js lines 199-213.
It divides by `denom` without any tolerance check; the JavaScript division
semantics is preserved via `jsdiv`.  Returns (the proposition corresponding
to) `!(mua < 0 || mua > 1 || mub < 0 || mub > 1)`. -/
noncomputable def intersect (x1 x2 x3 x4 y1 y2 y3 y4 : ℝ) : Prop :=
  let denom := (y4 - y3) * (x2 - x1) - (x4 - x3) * (y2 - y1)
  let numera := (x4 - x3) * (y1 - y3) - (y4 - y3) * (x1 - x3)
  let numerb := (x2 - x1) * (y1 - y3) - (y2 - y1) * (x1 - x3)
  let mua := jsdiv numera denom
  let mub := jsdiv numerb denom
  ¬ (mua.ltNum 0 ∨ mua.gtNum 1 ∨ mub.ltNum 0 ∨ mub.gtNum 1)

/-- `lineIntersectsLine` of labeler.js lines 230-238: returns `false` when
`|denom| < 0.0001` (parallel guard), otherwise tests the parametric
cross-ratios `ua, ub ∈ [0, 1]`. -/
noncomputable def lineIntersectsLine (x1 y1 x2 y2 x3 y3 x4 y4 : ℝ) : Prop :=
  let denom := (y4 - y3) * (x2 - x1) - (x4 - x3) * (y2 - y1)
  let ua := ((x4 - x3) * (y1 - y3) - (y4 - y3) * (x1 - x3)) / denom
  let ub := ((x2 - x1) * (y1 - y3) - (y2 - y1) * (x1 - x3)) / denom
  (0.0001 : ℝ) ≤ |denom| ∧ (0 ≤ ua ∧ ua ≤ 1 ∧ 0 ≤ ub ∧ ub ≤ 1)

/-- `lineIntersectsRect` of labeler.js lines 216-227: the segment crosses
one of the rectangle's four edges. -/
noncomputable def lineIntersectsRect (x1 y1 x2 y2 rx1 ry1 rx2 ry2 : ℝ) : Prop :=
  lineIntersectsLine x1 y1 x2 y2 rx1 ry1 rx2 ry1 ∨
  lineIntersectsLine x1 y1 x2 y2 rx1 ry2 rx2 ry2 ∨
  lineIntersectsLine x1 y1 x2 y2 rx1 ry1 rx1 ry2 ∨
  lineIntersectsLine x1 y1 x2 y2 rx2 ry1 rx2 ry2

/-! ## Energy function (labeler.js lines 36-119) -/

/-- Default label used for out-of-range list access. -/
def dLab : Lab := ⟨0, 0, 0, 0⟩

/-- Default anchor used for out-of-range list access. -/
def dAnc : Anc := ⟨0, 0, 0⟩

/-- The energy of label `index`: leader-line length penalty, label-label
overlap, label-anchor overlap (including the label's own anchor), fixed
obstacle overlap, and the (zero-weighted) leader-line crossing terms,
exactly as in labeler.js lines 36-119. -/
noncomputable def energy (index : ℕ) (st : LState) : ℝ :=
  let m := st.lab.length
  let li := st.lab.getD index dLab
  let ai := st.anc.getD index dAnc
  let dx := li.x - ai.x
  let dy := ai.y - li.y
  let dist := Real.sqrt (dx * dx + dy * dy)
  let x21 := li.x
  let y21 := li.y - li.height + 2.0
  let x22 := li.x + li.width
  let y22 := li.y + 2.0
  (if 0 < dist then dist * w_len else 0)
  + (∑ i ∈ Finset.range m,
      ((if i ≠ index then
          (if intersect ai.x li.x (st.anc.getD i dAnc).x (st.lab.getD i dLab).x
              ai.y li.y (st.anc.getD i dAnc).y (st.lab.getD i dLab).y
           then w_inter else 0)
          + overlapArea x21 y21 x22 y22
              (st.lab.getD i dLab).x
              ((st.lab.getD i dLab).y - (st.lab.getD i dLab).height + 2.0)
              ((st.lab.getD i dLab).x + (st.lab.getD i dLab).width)
              ((st.lab.getD i dLab).y + 2.0) * w_lab2
        else 0)
       + overlapArea x21 y21 x22 y22
           ((st.anc.getD i dAnc).x - (st.anc.getD i dAnc).r)
           ((st.anc.getD i dAnc).y - (st.anc.getD i dAnc).r)
           ((st.anc.getD i dAnc).x + (st.anc.getD i dAnc).r)
           ((st.anc.getD i dAnc).y + (st.anc.getD i dAnc).r) * w_lab_anc))
  + (st.fixedAnchors.map (fun fa =>
        overlapArea x21 y21 x22 y22 fa.x fa.y (fa.x + fa.width) (fa.y + fa.height) * w_fixed
        + (if lineIntersectsRect ai.x ai.y li.x li.y fa.x fa.y (fa.x + fa.width) (fa.y + fa.height)
           then w_leader_cross else 0))).sum
  + (∑ k ∈ Finset.range m,
      (if k ≠ index then
        (if lineIntersectsRect ai.x ai.y li.x li.y
            (st.lab.getD k dLab).x
            ((st.lab.getD k dLab).y - (st.lab.getD k dLab).height + 2.0)
            ((st.lab.getD k dLab).x + (st.lab.getD k dLab).width)
            ((st.lab.getD k dLab).y + 2.0)
         then w_leader_cross else 0)
       else 0))

/-! ## Perturbation moves (labeler.js lines 121-197) -/

/-- The hard-wall clamp applied to one coordinate, modelling the two
sequential statements `if (v > bound) v = vOld; if (v < 0) v = vOld;`
(labeler.js lines 134-138 and 178-182). -/
noncomputable def clampX (vOld vNew bound : ℝ) : ℝ :=
  let v1 := if bound < vNew then vOld else vNew
  if v1 < 0 then vOld else v1

/-- The label index drawn for a perturbation:
`Math.floor(Math.random() * lab.length)`. -/
noncomputable def perturbIndex (st : LState) (rI : ℝ) : ℕ :=
  (⌊rI * st.lab.length⌋).toNat

/-- The translated-and-clamped state proposed by `mcmove` (labeler.js lines
121-138), before the Metropolis test: label `i` moves by
`(rand - 0.5) * max_move` in each coordinate, then each coordinate is
clamped by the hard wall. -/
noncomputable def mcmoveProposal (st : LState) (rI rDx rDy : ℝ) : LState :=
  let i := perturbIndex st rI
  let li := st.lab.getD i dLab
  let xProp := li.x + (rDx - 0.5) * max_move
  let yProp := li.y + (rDy - 0.5) * max_move
  { st with lab := st.lab.set i { li with x := clampX li.x xProp st.w, y := clampX li.y yProp st.h } }

/-- The rotated-and-clamped state proposed by `mcrotate` (labeler.js lines
155-182): label `i` rotates about its anchor by `(rand - 0.5) * max_angle`,
then each coordinate is clamped by the hard wall. -/
noncomputable def mcrotateProposal (st : LState) (rI rAng : ℝ) : LState :=
  let i := perturbIndex st rI
  let li := st.lab.getD i dLab
  let ai := st.anc.getD i dAnc
  let angle := (rAng - 0.5) * max_angle
  let s := Real.sin angle
  let c := Real.cos angle
  let xr := li.x - ai.x
  let yr := li.y - ai.y
  let xProp := xr * c - yr * s + ai.x
  let yProp := xr * s + yr * c + ai.y
  { st with lab := st.lab.set i { li with x := clampX li.x xProp st.w, y := clampX li.y yProp st.h } }

/-- The Metropolis acceptance step shared by `mcmove` and `mcrotate`
(labeler.js lines 140-152 / 184-196): accept the proposal when
`Math.random() < Math.exp(-delta_energy / currT)` and bump `acc`; otherwise
restore label `i`'s `x`/`y` to their pre-move values and bump `rej`. -/
noncomputable def metropolisAccept (stOld stNew : LState) (i : ℕ) (currT u : ℝ) : LState :=
  let dE := energy i stNew - energy i stOld
  if u < Real.exp (-dE / currT) then
    { stNew with acc := stNew.acc + 1 }
  else
    let li := stNew.lab.getD i dLab
    let old := stOld.lab.getD i dLab
    { stNew with lab := stNew.lab.set i { li with x := old.x, y := old.y }, rej := stNew.rej + 1 }

/-- `mcmove` (labeler.js lines 121-153), with the four `Math.random()`
draws it consumes passed explicitly in program order: label pick, x-delta,
y-delta, acceptance draw. -/
noncomputable def mcmove (st : LState) (currT rI rDx rDy u : ℝ) : LState :=
  metropolisAccept st (mcmoveProposal st rI rDx rDy) (perturbIndex st rI) currT u

/-- `mcrotate` (labeler.js lines 155-197), with its three `Math.random()`
draws passed explicitly in program order: label pick, angle, acceptance
draw. -/
noncomputable def mcrotate (st : LState) (currT rI rAng u : ℝ) : LState :=
  metropolisAccept st (mcrotateProposal st rI rAng) (perturbIndex st rI) currT u

/-- `delta_energy` of an `mcmove` perturbation: energy of the proposed
(clamped) state minus energy of the current state, at the perturbed index. -/
noncomputable def mcmoveDelta (st : LState) (rI rDx rDy : ℝ) : ℝ :=
  energy (perturbIndex st rI) (mcmoveProposal st rI rDx rDy) - energy (perturbIndex st rI) st

/-- `delta_energy` of an `mcrotate` perturbation. -/
noncomputable def mcrotateDelta (st : LState) (rI rAng : ℝ) : ℝ :=
  energy (perturbIndex st rI) (mcrotateProposal st rI rAng) - energy (perturbIndex st rI) st

/-! ## Sweep loop (labeler.js lines 240-257)

`Math.random()` is modelled as a stream `f : ℕ → ℝ` of draws in `[0, 1)`
consumed left to right; `p` is the position of the next unconsumed draw.
One loop iteration consumes one draw for the move choice
(`Math.random() < 0.5`), then 4 draws inside `mcmove` or 3 inside
`mcrotate`. -/

/-- One iteration of the inner sweep loop (labeler.js lines 251-252):
`if (Math.random() < 0.5) { mcmove(currT); } else { mcrotate(currT); }`. -/
noncomputable def moveStep (f : ℕ → ℝ) (currT : ℝ) : LState × ℕ → LState × ℕ :=
  fun sp =>
    if f sp.2 < 0.5 then
      (mcmove sp.1 currT (f (sp.2 + 1)) (f (sp.2 + 2)) (f (sp.2 + 3)) (f (sp.2 + 4)), sp.2 + 5)
    else
      (mcrotate sp.1 currT (f (sp.2 + 1)) (f (sp.2 + 2)) (f (sp.2 + 3)), sp.2 + 4)

/-- `n` successive iterations of the inner loop at temperature `currT`.
One sweep is `runSteps f currT m` where `m` is the label count. -/
noncomputable def runSteps (f : ℕ → ℝ) (currT : ℝ) : ℕ → LState × ℕ → LState × ℕ
  | 0, sp => sp
  | n + 1, sp => runSteps f currT n (moveStep f currT sp)

/-- `cooling_schedule` (labeler.js lines 240-242):
`currT - initialT / nsweeps`. -/
noncomputable def cooling_schedule (currT initialT : ℝ) (nsweeps : ℕ) : ℝ :=
  currT - initialT / nsweeps

/-- The outer sweep loop: run `k` more sweeps of `m` inner iterations each,
cooling after each sweep. -/
noncomputable def runSweeps (f : ℕ → ℝ) (initialT : ℝ) (nsweeps m : ℕ) :
    ℕ → ℝ → LState × ℕ → LState × ℕ
  | 0, _, sp => sp
  | k + 1, currT, sp =>
      runSweeps f initialT nsweeps m k (cooling_schedule currT initialT nsweeps)
        (runSteps f currT m sp)

/-- `labeler.start(nsweeps)` (labeler.js lines 244-257): `m = lab.length`,
`currT = initialT = 1.0`, then `nsweeps` sweeps with linear cooling. -/
noncomputable def start (st : LState) (nsweeps : ℕ) (f : ℕ → ℝ) : LState × ℕ :=
  runSweeps f 1.0 nsweeps st.lab.length nsweeps 1.0 (st, 0)

/-- The trace of one sweep: for `n` inner iterations starting at stream
position `p`, the list of `(label index drawn, move kind)` pairs, where the
kind is `true` for a translation (`mcmove`) and `false` for a rotation.
Positions advance by 5 for a translation and 4 for a rotation, exactly as
in `moveStep`. -/
noncomputable def sweepTrace (f : ℕ → ℝ) (m : ℕ) : ℕ → ℕ → List (ℕ × Bool)
  | _, 0 => []
  | p, n + 1 =>
      ((⌊f (p + 1) * m⌋).toNat, if f p < 0.5 then true else false)
        :: sweepTrace f m (if f p < 0.5 then p + 5 else p + 4) n

/-- Boundary containment: every label of the state lies in
`[0, w] × [0, h]`. -/
def inBounds (st : LState) : Prop :=
  ∀ l ∈ st.lab, 0 ≤ l.x ∧ l.x ≤ st.w ∧ 0 ≤ l.y ∧ l.y ≤ st.h

/-! ## Capital deduplication — the Conflict Resolver
(src/js/llmMapGenerator.js, `renderMap`, lines 1575-1628)

The geometric containment test `states.features.find(s =>
d3.geoContains(s, coords))` is an external d3 library call; it is modelled
by an explicit region-assignment function `assign : City → Option String`
(`none` = the capital lies in no state polygon). -/

/-- A requested city: display name (`properties.NAME`) and capital flag. -/
structure City where
  name : String
  isCapital : Bool
deriving DecidableEq

/-- `nameCounts[n]`: occurrences of display name `n` across the entire
requested-city list (llmMapGenerator.js lines 1602-1607). -/
def nameCount (cities : List City) (n : String) : ℕ :=
  (cities.filter (fun c => c.name = n)).length

/-- Insert a candidate into an ascending-by-count list, after all elements
whose count is `≤` its own.  Folding this over a list is a stable
insertion sort — the same permutation that JavaScript's stable
`Array.prototype.sort((a, b) => countA - countB)` produces. -/
def insertByCount (cnt : City → ℕ) (a : City) : List City → List City
  | [] => [a]
  | b :: l => if cnt b ≤ cnt a then b :: insertByCount cnt a l else a :: b :: l

/-- Stable ascending sort by uniqueness count, modelling
`candidates.sort((a, b) => countA - countB)` (llmMapGenerator.js lines
1610-1614). -/
def stableSortByCount (cnt : City → ℕ) (l : List City) : List City :=
  l.foldl (fun acc a => insertByCount cnt a acc) []

/-- One step of the spec-side winner scan: keep the running winner unless
the next candidate has a strictly smaller count. -/
def winStep (cnt : City → ℕ) (w : Option City) (c : City) : Option City :=
  match w with
  | none => some c
  | some b => if cnt c < cnt b then some c else some b

/-- Modelled from the spec: the winner the spec describes — "keep the
single lowest-score (most-unique-name) candidate; ties … broken by
original input order (stable sort; first-seen wins)" — i.e. the earliest
element attaining the minimal count.  Compared below with the head of the
source's stable sort. -/
def specWinner (cnt : City → ℕ) (l : List City) : Option City :=
  l.foldl (winStep cnt) none

/-- Conflict resolution for one state's candidate group (llmMapGenerator.js
lines 1598-1625): a singleton group is kept as is; a larger group is sorted
ascending by name count and only `candidates[0]` is kept. -/
def resolveGroup (cnt : City → ℕ) (g : List City) : List City :=
  if g.length = 1 then g.take 1
  else
    match stableSortByCount cnt g with
    | [] => []
    | wnr :: _ => [wnr]

/-- Append capital `c` to the group keyed `s`, creating the key at the end
on first occurrence — JavaScript object insertion order
(`capitalsByState[stateName].push(city)`, lines 1586-1589). -/
def addToGroups (s : String) (c : City) :
    List (String × List City) → List (String × List City)
  | [] => [(s, [c])]
  | (k, g) :: rest =>
      if k = s then (k, g ++ [c]) :: rest else (k, g) :: addToGroups s c rest

/-- Partition the capitals into per-state groups (in first-seen key order)
and the unmapped list (llmMapGenerator.js lines 1579-1593). -/
def groupCapitals (assign : City → Option String) (caps : List City) :
    List (String × List City) × List City :=
  caps.foldl (fun acc c =>
    match assign c with
    | some s => (addToGroups s c acc.1, acc.2)
    | none => (acc.1, acc.2 ++ [c])) ([], [])

/-- The whole capital-deduplication pass (llmMapGenerator.js lines
1575-1628): `requestedCities = [...nonCapitals, ...filteredCapitals]` where
`filteredCapitals = [...unmappedCapitals]` followed by one winner per
state group, in key insertion order. -/
def dedupCapitals (assign : City → Option String) (cities : List City) : List City :=
  let caps := cities.filter (fun c => c.isCapital)
  let noncaps := cities.filter (fun c => !c.isCapital)
  let grouped := groupCapitals assign caps
  let cnt := fun c : City => nameCount cities c.name
  noncaps ++ (grouped.2 ++ grouped.1.flatMap (fun p => resolveGroup cnt p.2))

/-- Invariant of the grouping accumulator: distinct state keys, and every
group is nonempty and holds only cities assigned to its key and
satisfying `P`. -/
def GroupsInv (assign : City → Option String) (P : City → Prop)
    (gs : List (String × List City)) : Prop :=
  (gs.map Prod.fst).Nodup ∧
  ∀ p ∈ gs, p.2 ≠ [] ∧ ∀ c ∈ p.2, assign c = some p.1 ∧ P c

/-! ## Candidate generator and deterministic scorer
(src/js/llmMapGenerator.js, `renderMap`, lines 1676-1731 and 1819-1893) -/

/-- One candidate position for a city label. -/
structure Cand where
  x : ℝ
  y : ℝ

/-- A city label entry of `cityLabelData`: current position `(x, y)`
(initially candidate 0), the measured text box, the 8 candidates, and the
recorded position index (`lab.posIdx`, `none` before placement). -/
structure CityLab where
  x : ℝ
  y : ℝ
  width : ℝ
  height : ℝ
  candidates : List Cand
  posIdx : Option ℕ

/-- A city anchor entry of `cityAnchorData`: marker centre, the stored
radius `r = isCapital ? 4 : 2`, and the stored marker-footprint bbox
(square of side `2r` centred on the marker, llmMapGenerator.js lines
1718-1729). -/
structure CAnchor where
  x : ℝ
  y : ℝ
  r : ℝ
  bboxX : ℝ
  bboxY : ℝ
  bboxW : ℝ
  bboxH : ℝ

/-- Default city label for out-of-range access. -/
def dCLab : CityLab := ⟨0, 0, 0, 0, [], none⟩

/-- Default anchor for out-of-range access. -/
def dCAnc : CAnchor := ⟨0, 0, 0, 0, 0, 0, 0⟩

/-- The 8 candidate positions (llmMapGenerator.js lines 1680-1708):
`gap = 0`, `markerR = isCapital ? 2 : 1`, `offset = (gap + markerR) * 0.8`,
`aboveY = cy - 4`, `belowY = cy + 8`; order: right, left, top-right,
top-left, centered-above, bottom-right, bottom-left, centered-below. -/
noncomputable def genCandidates (cx cy bw : ℝ) (isCapital : Bool) : List Cand :=
  let gap : ℝ := 0
  let markerR : ℝ := if isCapital then 2 else 1
  let offset := (gap + markerR) * 0.8
  let aboveY := cy - 4
  let belowY := cy + 8
  [⟨cx + offset + 1, cy + 3⟩,
   ⟨cx - bw - offset - 1, cy + 3⟩,
   ⟨cx + offset, aboveY⟩,
   ⟨cx - bw - offset, aboveY⟩,
   ⟨cx - bw / 2, aboveY⟩,
   ⟨cx + offset, belowY⟩,
   ⟨cx - bw - offset, belowY⟩,
   ⟨cx - bw / 2, belowY⟩]

/-- The `cityLabelData` entry built for a measured city label
(llmMapGenerator.js lines 1710-1717): position = candidate 0, measured box,
candidate list. -/
noncomputable def mkCityLab (cx cy bw bh : ℝ) (isCapital : Bool) : CityLab :=
  let cands := genCandidates cx cy bw isCapital
  { x := (cands.getD 0 ⟨0, 0⟩).x
    y := (cands.getD 0 ⟨0, 0⟩).y
    width := bw
    height := bh
    candidates := cands
    posIdx := none }

/-- The `cityAnchorData` entry (llmMapGenerator.js lines 1718-1729). -/
noncomputable def mkCAnchor (cx cy : ℝ) (isCapital : Bool) : CAnchor :=
  let r : ℝ := if isCapital then 4 else 2
  { x := cx, y := cy, r := r, bboxX := cx - r, bboxY := cy - r, bboxW := 2 * r, bboxH := 2 * r }

/-- The distance penalty base of the deterministic scorer: Euclidean
distance from the candidate label rectangle's centre
`(pos.x + width/2, pos.y - height/2)` to the anchor (llmMapGenerator.js
lines 1867-1870). -/
noncomputable def candDist (lab : CityLab) (anc : CAnchor) (pos : Cand) : ℝ :=
  Real.sqrt ((pos.x + lab.width / 2 - anc.x) * (pos.x + lab.width / 2 - anc.x)
    + (pos.y - lab.height / 2 - anc.y) * (pos.y - lab.height / 2 - anc.y))

/-- The deterministic score of candidate `pos` at position index `posIdx`
(llmMapGenerator.js lines 1824-1870): `100×` overlap with each fixed
obstacle, `5×` overlap with each already-placed label (at its current,
i.e. final, position), `+50` flat for the centered indices 4 and 7, and
`0.5×` the centre-to-anchor distance. -/
noncomputable def candScore (fas : List FixedA) (placed : List CityLab)
    (lab : CityLab) (anc : CAnchor) (pos : Cand) (posIdx : ℕ) : ℝ :=
  (fas.map (fun fa =>
    overlapArea pos.x (pos.y - lab.height) (pos.x + lab.width) pos.y
      fa.x fa.y (fa.x + fa.width) (fa.y + fa.height) * 100)).sum
  + (placed.map (fun o =>
    overlapArea pos.x (pos.y - lab.height) (pos.x + lab.width) pos.y
      o.x (o.y - o.height) (o.x + o.width) o.y * 5)).sum
  + (if posIdx = 4 ∨ posIdx = 7 then 50 else 0)
  + candDist lab anc pos * 0.5

/-- Index selection of the scorer loop (llmMapGenerator.js lines
1821-1877): start from candidate 0 (`bestScore = Infinity` makes the first
iteration always win) and replace only on a strictly smaller score, so the
earliest index wins ties. -/
noncomputable def pickBest (sc : ℕ → ℝ) (n : ℕ) : ℕ :=
  (List.range n).foldl (fun best j => if sc j < sc best then j else best) 0

/-- Placement of one label given the already-placed prefix
(llmMapGenerator.js lines 1819-1882): score every candidate, pick the best
index `b`, record `candidates[b].x/.y` and `posIdx = b`.  A label with no
candidates is left unchanged (the `lab.candidates.length > 0` guard). -/
noncomputable def placeStep (fas : List FixedA) (anc : CAnchor)
    (placed : List CityLab) (lab : CityLab) : CityLab :=
  if lab.candidates.length = 0 then lab
  else
    let sc := fun j => candScore fas placed lab anc (lab.candidates.getD j ⟨0, 0⟩) j
    let b := pickBest sc lab.candidates.length
    { lab with
        x := (lab.candidates.getD b ⟨0, 0⟩).x
        y := (lab.candidates.getD b ⟨0, 0⟩).y
        posIdx := some b }

/-- The sequential scorer pass over all labels: label `idx` sees the first
`idx` labels at their final chosen positions (`otherIdx < idx` in the
code) and `anchorData[idx]`. -/
noncomputable def placeAllAux (fas : List FixedA) (ancs : List CAnchor) :
    List CityLab → List CityLab → List CityLab
  | placed, [] => placed
  | placed, lab :: rest =>
      placeAllAux fas ancs
        (placed ++ [placeStep fas (ancs.getD placed.length dCAnc) placed lab]) rest

/-- The whole deterministic placement pass (`labelData.forEach` at
llmMapGenerator.js lines 1819-1883). -/
noncomputable def placeAll (fas : List FixedA) (ancs : List CAnchor)
    (labs : List CityLab) : List CityLab :=
  placeAllAux fas ancs [] labs

/-- The score that remains with zero fixed obstacles and no earlier
labels: the flat centered-position penalty plus the distance penalty. -/
noncomputable def distPenalty (lab : CityLab) (anc : CAnchor) (j : ℕ) : ℝ :=
  (if j = 4 ∨ j = 7 then (50 : ℝ) else 0) +
    candDist lab anc (lab.candidates.getD j ⟨0, 0⟩) * 0.5

/-! ## Shared helper lemmas -/

/-- Setting an index back to the value it already holds is the identity. -/
theorem set_getD_self (l : List Lab) (i : ℕ) (d : Lab) (h : i < l.length) :
    l.set i (l.getD i d) = l := by
  induction l generalizing i with
  | nil => rfl
  | cons a t ih =>
    cases i with
    | zero => rfl
    | succ n =>
      simp only [List.set, List.getD_cons_succ]
      rw [ih n (Nat.lt_of_succ_lt_succ h)]

/-- Reading back the index just set. -/
theorem getD_set_self (l : List Lab) (i : ℕ) (a d : Lab) (h : i < l.length) :
    (l.set i a).getD i d = a := by
  rw [List.getD_eq_getElem?_getD, List.getElem?_set_eq_of_lt a h]
  rfl

/-- Setting the perturbed label's `x`/`y` back to their old values undoes a
proposal of the form `set i { getD i with x := a, y := b }`. -/
theorem restore_core (st : LState) (i : ℕ) (a b : ℝ) :
    (st.lab.set i { st.lab.getD i dLab with x := a, y := b }).set i
      { (st.lab.set i { st.lab.getD i dLab with x := a, y := b }).getD i dLab with
          x := (st.lab.getD i dLab).x, y := (st.lab.getD i dLab).y } = st.lab := by
  rcases lt_or_le i st.lab.length with h | h
  · rw [getD_set_self _ _ _ _ h, List.set_set]
    have heta : ({ { st.lab.getD i dLab with x := a, y := b } with
        x := (st.lab.getD i dLab).x, y := (st.lab.getD i dLab).y } : Lab) =
        st.lab.getD i dLab := rfl
    rw [heta, set_getD_self _ _ _ h]
  · rw [List.set_eq_of_length_le (by simpa using h), List.set_eq_of_length_le h]

/-! ## C1: Metropolis acceptance criterion -/

/-- Acceptance happens exactly on `u < exp(-dE/currT)`, for `mcmove`. -/
theorem mcmove_acc_iff (st : LState) (currT rI rDx rDy u : ℝ) :
    (mcmove st currT rI rDx rDy u).acc = st.acc + 1 ↔
      u < Real.exp (-(mcmoveDelta st rI rDx rDy) / currT) := by
  simp only [mcmove, metropolisAccept]
  split_ifs with h
  · exact iff_of_true rfl h
  · exact iff_of_false (fun hEq => Nat.succ_ne_self st.acc hEq.symm) h

/-- Acceptance happens exactly on `u < exp(-dE/currT)`, for `mcrotate`. -/
theorem mcrotate_acc_iff (st : LState) (currT rI rAng u : ℝ) :
    (mcrotate st currT rI rAng u).acc = st.acc + 1 ↔
      u < Real.exp (-(mcrotateDelta st rI rAng) / currT) := by
  simp only [mcrotate, metropolisAccept]
  split_ifs with h
  · exact iff_of_true rfl h
  · exact iff_of_false (fun hEq => Nat.succ_ne_self st.acc hEq.symm) h

/-- A rejected `mcmove` restores the labels exactly and bumps `rej`. -/
theorem mcmove_reject (st : LState) (currT rI rDx rDy u : ℝ)
    (h : ¬ u < Real.exp (-(mcmoveDelta st rI rDx rDy) / currT)) :
    (mcmove st currT rI rDx rDy u).lab = st.lab ∧
    (mcmove st currT rI rDx rDy u).rej = st.rej + 1 := by
  simp only [mcmoveDelta] at h
  simp only [mcmove, metropolisAccept]
  rw [if_neg h]
  exact ⟨restore_core st (perturbIndex st rI) _ _, rfl⟩

/-- A rejected `mcrotate` restores the labels exactly and bumps `rej`. -/
theorem mcrotate_reject (st : LState) (currT rI rAng u : ℝ)
    (h : ¬ u < Real.exp (-(mcrotateDelta st rI rAng) / currT)) :
    (mcrotate st currT rI rAng u).lab = st.lab ∧
    (mcrotate st currT rI rAng u).rej = st.rej + 1 := by
  simp only [mcrotateDelta] at h
  simp only [mcrotate, metropolisAccept]
  rw [if_neg h]
  exact ⟨restore_core st (perturbIndex st rI) _ _, rfl⟩

/-- A draw in `[0, 1)` always beats `exp(-dE/currT)` when `dE ≤ 0` and
`currT > 0`. -/
theorem exp_accept_of_nonpos {dE currT u : ℝ} (hu1 : u < 1) (hT : 0 < currT)
    (hdE : dE ≤ 0) : u < Real.exp (-dE / currT) :=
  lt_of_lt_of_le hu1 (by
    rw [← Real.exp_zero]
    exact Real.exp_le_exp.mpr (div_nonneg (neg_nonneg.mpr hdE) hT.le))

/-- C1 (confirmed): a perturbation (translation or rotation) at temperature
`currT` is accepted exactly when the fresh uniform draw `u ∈ [0,1)`
satisfies `u < exp(-(E_new - E_old)/currT)`; in particular every
perturbation with `ΔE ≤ 0` (and `currT > 0`) is accepted unconditionally,
and every rejected move restores label `i`'s `x` and `y` to their exact
pre-perturbation values. -/
theorem C1_metropolis_criterion (st : LState) (currT rI rDx rDy rAng u : ℝ)
    (hu1 : u < 1) (hT : 0 < currT) :
    ((mcmove st currT rI rDx rDy u).acc = st.acc + 1 ↔
        u < Real.exp (-(mcmoveDelta st rI rDx rDy) / currT)) ∧
    (mcmoveDelta st rI rDx rDy ≤ 0 →
        (mcmove st currT rI rDx rDy u).acc = st.acc + 1) ∧
    (¬ u < Real.exp (-(mcmoveDelta st rI rDx rDy) / currT) →
        (mcmove st currT rI rDx rDy u).lab = st.lab ∧
        (mcmove st currT rI rDx rDy u).rej = st.rej + 1) ∧
    ((mcrotate st currT rI rAng u).acc = st.acc + 1 ↔
        u < Real.exp (-(mcrotateDelta st rI rAng) / currT)) ∧
    (mcrotateDelta st rI rAng ≤ 0 →
        (mcrotate st currT rI rAng u).acc = st.acc + 1) ∧
    (¬ u < Real.exp (-(mcrotateDelta st rI rAng) / currT) →
        (mcrotate st currT rI rAng u).lab = st.lab ∧
        (mcrotate st currT rI rAng u).rej = st.rej + 1) := by
  refine ⟨mcmove_acc_iff st currT rI rDx rDy u, ?_,
    mcmove_reject st currT rI rDx rDy u, mcrotate_acc_iff st currT rI rAng u, ?_,
    mcrotate_reject st currT rI rAng u⟩
  · intro hdE
    exact (mcmove_acc_iff st currT rI rDx rDy u).mpr (exp_accept_of_nonpos hu1 hT hdE)
  · intro hdE
    exact (mcrotate_acc_iff st currT rI rAng u).mpr (exp_accept_of_nonpos hu1 hT hdE)

/-- Witness for `C1_metropolis_criterion` at a concrete state and draws. -/
theorem C1_witness :
    ∃ st : LState,
      (mcmoveDelta st 0 (1/2) (1/2) ≤ 0 →
        (mcmove st 1 0 (1/2) (1/2) (1/2)).acc = st.acc + 1) := by
  refine ⟨⟨[⟨1, 1, 2, 1⟩], [⟨0, 0, 1⟩], [], 10, 10, 0, 0⟩, ?_⟩
  exact (C1_metropolis_criterion ⟨[⟨1, 1, 2, 1⟩], [⟨0, 0, 1⟩], [], 10, 10, 0, 0⟩
    1 0 (1/2) (1/2) 0 (1/2) (by norm_num) (by norm_num)).2.1

/-! ## C2: boundary containment -/

/-- The clamp keeps a coordinate inside `[0, bound]` whenever the pre-move
coordinate was. -/
theorem clampX_bounds (vOld vNew bound : ℝ) (h0 : 0 ≤ vOld) (hb : vOld ≤ bound) :
    0 ≤ clampX vOld vNew bound ∧ clampX vOld vNew bound ≤ bound := by
  simp only [clampX]
  split_ifs <;> constructor <;> linarith

/-- Any state whose labels were produced by clamping from an in-bounds
state is in bounds. -/
theorem proposal_inBounds (st : LState) (i : ℕ) (a b : ℝ) (h : inBounds st) :
    inBounds { st with
      lab := st.lab.set i
          { st.lab.getD i dLab with
              x := clampX (st.lab.getD i dLab).x a st.w
              y := clampX (st.lab.getD i dLab).y b st.h } } := by
  rcases lt_or_le i st.lab.length with hi | hi
  · intro l hl
    rcases List.mem_or_eq_of_mem_set hl with hmem | heq
    · exact h l hmem
    · subst heq
      have hli := h (st.lab.getD i dLab)
        (by rw [List.getD_eq_getElem?_getD, List.getElem?_eq_getElem hi]; exact List.getElem_mem hi)
      obtain ⟨hx0, hxw, hy0, hyh⟩ := hli
      obtain ⟨cx0, cxw⟩ := clampX_bounds (st.lab.getD i dLab).x a st.w hx0 hxw
      obtain ⟨cy0, cyh⟩ := clampX_bounds (st.lab.getD i dLab).y b st.h hy0 hyh
      exact ⟨cx0, cxw, cy0, cyh⟩
  · intro l hl
    rw [List.set_eq_of_length_le hi] at hl
    exact h l hl

/-- The Metropolis step preserves containment: it returns either the
proposed labels or the restored old coordinates. -/
theorem metropolisAccept_inBounds (stOld stNew : LState) (i : ℕ) (currT u : ℝ)
    (hlen : stNew.lab.length = stOld.lab.length)
    (hw : stNew.w = stOld.w) (hh : stNew.h = stOld.h)
    (hOld : inBounds stOld) (hNew : inBounds stNew) :
    inBounds (metropolisAccept stOld stNew i currT u) := by
  simp only [metropolisAccept]
  split_ifs with hAcc
  · exact hNew
  · rcases lt_or_le i stNew.lab.length with hi | hi
    · intro l hl
      rcases List.mem_or_eq_of_mem_set hl with hmem | heq
      · exact hNew l hmem
      · subst heq
        have hiOld : i < stOld.lab.length := hlen ▸ hi
        have hOldMem := hOld (stOld.lab.getD i dLab)
          (by rw [List.getD_eq_getElem?_getD, List.getElem?_eq_getElem hiOld]
              exact List.getElem_mem hiOld)
        obtain ⟨hx0, hxw, hy0, hyh⟩ := hOldMem
        exact ⟨hx0, hw ▸ hxw, hy0, hh ▸ hyh⟩
    · intro l hl
      rw [List.set_eq_of_length_le hi] at hl
      exact hNew l hl

/-- `mcmove` preserves containment. -/
theorem mcmove_inBounds (st : LState) (currT rI rDx rDy u : ℝ) (h : inBounds st) :
    inBounds (mcmove st currT rI rDx rDy u) := by
  refine metropolisAccept_inBounds st (mcmoveProposal st rI rDx rDy) _ currT u ?_ rfl rfl h ?_
  · simp [mcmoveProposal]
  · exact proposal_inBounds st (perturbIndex st rI) _ _ h

/-- `mcrotate` preserves containment. -/
theorem mcrotate_inBounds (st : LState) (currT rI rAng u : ℝ) (h : inBounds st) :
    inBounds (mcrotate st currT rI rAng u) := by
  refine metropolisAccept_inBounds st (mcrotateProposal st rI rAng) _ currT u ?_ rfl rfl h ?_
  · simp [mcrotateProposal]
  · exact proposal_inBounds st (perturbIndex st rI) _ _ h

/-- One sweep iteration preserves containment. -/
theorem moveStep_inBounds (f : ℕ → ℝ) (currT : ℝ) (sp : LState × ℕ)
    (h : inBounds sp.1) : inBounds (moveStep f currT sp).1 := by
  simp only [moveStep]
  split_ifs with hc
  · exact mcmove_inBounds _ _ _ _ _ _ h
  · exact mcrotate_inBounds _ _ _ _ _ h

/-- Any number of inner iterations preserves containment. -/
theorem runSteps_inBounds (f : ℕ → ℝ) (currT : ℝ) (n : ℕ) (sp : LState × ℕ)
    (h : inBounds sp.1) : inBounds (runSteps f currT n sp).1 := by
  induction n generalizing sp with
  | zero => exact h
  | succ k ih => exact ih _ (moveStep_inBounds f currT sp h)

/-- Any number of sweeps preserves containment. -/
theorem runSweeps_inBounds (f : ℕ → ℝ) (initialT : ℝ) (nsweeps m : ℕ)
    (k : ℕ) (currT : ℝ) (sp : LState × ℕ) (h : inBounds sp.1) :
    inBounds (runSweeps f initialT nsweeps m k currT sp).1 := by
  induction k generalizing currT sp with
  | zero => exact h
  | succ n ih => exact ih _ _ (runSteps_inBounds f currT m sp h)

/-- C2 (confirmed): for every run of the annealing engine over any number
of sweeps and any draw stream, if every label starts inside
`[0, w] × [0, h]` then after the run every label's `{x, y}` is still
inside `[0, w] × [0, h]` — the per-move hard wall clamps each proposal to
the box and rejection restores an in-bounds position. -/
theorem C2_boundary_containment (st : LState) (nsweeps : ℕ) (f : ℕ → ℝ)
    (h : inBounds st) : inBounds (start st nsweeps f).1 :=
  runSweeps_inBounds f 1.0 nsweeps st.lab.length nsweeps 1.0 (st, 0) h

/-- Witness for `C2_boundary_containment` on a concrete one-label state. -/
theorem C2_witness :
    inBounds (start ⟨[⟨1, 1, 2, 1⟩], [⟨0, 0, 1⟩], [], 10, 10, 0, 0⟩ 3 (fun _ => 1/2)).1 := by
  refine C2_boundary_containment _ 3 (fun _ => 1/2) ?_
  intro l hl
  simp only [List.mem_singleton] at hl
  subst hl
  norm_num

/-! ## C4: what one sweep actually does -/

/-- Setting a different index leaves a `getD` lookup unchanged. -/
theorem getD_set_ne (l : List Lab) (i j : ℕ) (a d : Lab) (h : i ≠ j) :
    (l.set i a).getD j d = l.getD j d := by
  rw [List.getD_eq_getElem?_getD, List.getD_eq_getElem?_getD, List.getElem?_set_ne h]

/-- The Metropolis step keeps the label count. -/
theorem metropolisAccept_length (stOld stNew : LState) (i : ℕ) (currT u : ℝ) :
    (metropolisAccept stOld stNew i currT u).lab.length = stNew.lab.length := by
  simp only [metropolisAccept]
  split_ifs <;> simp

/-- `mcmove` keeps the label count. -/
theorem mcmove_length (st : LState) (currT rI rDx rDy u : ℝ) :
    (mcmove st currT rI rDx rDy u).lab.length = st.lab.length := by
  rw [mcmove, metropolisAccept_length]
  simp [mcmoveProposal]

/-- `mcrotate` keeps the label count. -/
theorem mcrotate_length (st : LState) (currT rI rAng u : ℝ) :
    (mcrotate st currT rI rAng u).lab.length = st.lab.length := by
  rw [mcrotate, metropolisAccept_length]
  simp [mcrotateProposal]

/-- One sweep iteration keeps the label count. -/
theorem moveStep_length (f : ℕ → ℝ) (currT : ℝ) (sp : LState × ℕ) :
    (moveStep f currT sp).1.lab.length = sp.1.lab.length := by
  simp only [moveStep]
  split_ifs
  · exact mcmove_length _ _ _ _ _ _
  · exact mcrotate_length _ _ _ _ _

/-- The Metropolis step leaves every label other than the perturbed one
unchanged. -/
theorem metropolisAccept_getD_ne (stOld stNew : LState) (i : ℕ) (currT u : ℝ)
    (j : ℕ) (d : Lab) (h : j ≠ i) :
    (metropolisAccept stOld stNew i currT u).lab.getD j d = stNew.lab.getD j d := by
  simp only [metropolisAccept]
  split_ifs
  · rfl
  · exact getD_set_ne _ _ _ _ _ (Ne.symm h)

/-- `mcmove` perturbs only the drawn label. -/
theorem mcmove_getD_ne (st : LState) (currT rI rDx rDy u : ℝ) (j : ℕ) (d : Lab)
    (h : j ≠ perturbIndex st rI) :
    (mcmove st currT rI rDx rDy u).lab.getD j d = st.lab.getD j d := by
  rw [mcmove, metropolisAccept_getD_ne _ _ _ _ _ _ _ h]
  simp only [mcmoveProposal]
  exact getD_set_ne _ _ _ _ _ (Ne.symm h)

/-- `mcrotate` perturbs only the drawn label. -/
theorem mcrotate_getD_ne (st : LState) (currT rI rAng u : ℝ) (j : ℕ) (d : Lab)
    (h : j ≠ perturbIndex st rI) :
    (mcrotate st currT rI rAng u).lab.getD j d = st.lab.getD j d := by
  rw [mcrotate, metropolisAccept_getD_ne _ _ _ _ _ _ _ h]
  simp only [mcrotateProposal]
  exact getD_set_ne _ _ _ _ _ (Ne.symm h)

/-- A sweep trace always has one entry per inner iteration. -/
theorem sweepTrace_length (f : ℕ → ℝ) (m : ℕ) :
    ∀ (n p : ℕ), (sweepTrace f m p n).length = n := by
  intro n
  induction n with
  | zero => intro p; rfl
  | succ k ih => intro p; simp only [sweepTrace, List.length_cons, ih]

/-- With draws in `[0, 1)` and at least one label, every drawn index is a
valid label index. -/
theorem sweepTrace_index_lt (f : ℕ → ℝ) (m : ℕ) (hm : 0 < m)
    (hf : ∀ k, 0 ≤ f k ∧ f k < 1) :
    ∀ (n p : ℕ), ∀ e ∈ sweepTrace f m p n, e.1 < m := by
  intro n
  induction n with
  | zero => intro p e he; cases he
  | succ k ih =>
    intro p e he
    simp only [sweepTrace, List.mem_cons] at he
    rcases he with he | he
    · subst he
      have h1 : (0 : ℝ) ≤ f (p + 1) := (hf (p + 1)).1
      have h2 : f (p + 1) < 1 := (hf (p + 1)).2
      have hmul : f (p + 1) * (m : ℝ) < (m : ℝ) := by
        have := mul_lt_mul_of_pos_right h2 (by exact_mod_cast hm : (0 : ℝ) < (m : ℝ))
        simpa using this
      have hfl : ⌊f (p + 1) * (m : ℝ)⌋ < (m : ℤ) := Int.floor_lt.mpr (by exact_mod_cast hmul)
      have hnn : (0 : ℤ) ≤ ⌊f (p + 1) * (m : ℝ)⌋ :=
        Int.floor_nonneg.mpr (mul_nonneg h1 (Nat.cast_nonneg m))
      exact (Int.toNat_lt hnn).mpr hfl
    · exact ih _ e he

/-- Any label whose index is never drawn during the sweep segment emerges
exactly unchanged. -/
theorem runSteps_untouched (f : ℕ → ℝ) (currT : ℝ) (n : ℕ) (sp : LState × ℕ)
    (j : ℕ) (d : Lab)
    (h : j ∉ (sweepTrace f sp.1.lab.length sp.2 n).map Prod.fst) :
    (runSteps f currT n sp).1.lab.getD j d = sp.1.lab.getD j d := by
  induction n generalizing sp with
  | zero => rfl
  | succ k ih =>
    simp only [sweepTrace, List.map_cons, List.mem_cons, not_or] at h
    obtain ⟨hj1, hj2⟩ := h
    rw [runSteps]
    by_cases hc : f sp.2 < 0.5
    · have hms : moveStep f currT sp =
          (mcmove sp.1 currT (f (sp.2 + 1)) (f (sp.2 + 2)) (f (sp.2 + 3)) (f (sp.2 + 4)),
           sp.2 + 5) := by
        simp [moveStep, hc]
      rw [hms]
      rw [if_pos hc] at hj2
      have htr : j ∉ (sweepTrace f
          (mcmove sp.1 currT (f (sp.2 + 1)) (f (sp.2 + 2)) (f (sp.2 + 3)) (f (sp.2 + 4))).lab.length
          (sp.2 + 5) k).map Prod.fst := by
        rw [mcmove_length]
        exact hj2
      exact (ih (mcmove sp.1 currT (f (sp.2 + 1)) (f (sp.2 + 2)) (f (sp.2 + 3)) (f (sp.2 + 4)),
          sp.2 + 5) htr).trans (mcmove_getD_ne sp.1 currT _ _ _ _ j d hj1)
    · have hms : moveStep f currT sp =
          (mcrotate sp.1 currT (f (sp.2 + 1)) (f (sp.2 + 2)) (f (sp.2 + 3)), sp.2 + 4) := by
        simp [moveStep, hc]
      rw [hms]
      rw [if_neg hc] at hj2
      have htr : j ∉ (sweepTrace f
          (mcrotate sp.1 currT (f (sp.2 + 1)) (f (sp.2 + 2)) (f (sp.2 + 3))).lab.length
          (sp.2 + 4) k).map Prod.fst := by
        rw [mcrotate_length]
        exact hj2
      exact (ih (mcrotate sp.1 currT (f (sp.2 + 1)) (f (sp.2 + 2)) (f (sp.2 + 3)),
          sp.2 + 4) htr).trans (mcrotate_getD_ne sp.1 currT _ _ _ j d hj1)

/-- C4 (amended): each sweep performs exactly `m` perturbations, but their
targets are drawn uniformly at random WITH replacement — the `j`-th
perturbation targets label `⌊u·m⌋` for a fresh draw `u`, so one label can
be perturbed several times in a sweep while another is never touched (and
then emerges exactly unchanged).  Each perturbation is a translation
(`mcmove`) when its move-choice draw is below `0.5` and a rotation
(`mcrotate`) otherwise. -/
theorem C4_sweep_with_replacement (f : ℕ → ℝ) (currT : ℝ) (st : LState) (p : ℕ)
    (hf : ∀ k, 0 ≤ f k ∧ f k < 1) (hm : 0 < st.lab.length) :
    (sweepTrace f st.lab.length p st.lab.length).length = st.lab.length ∧
    (∀ e ∈ sweepTrace f st.lab.length p st.lab.length, e.1 < st.lab.length) ∧
    ((moveStep f currT (st, p)).1 =
      if f p < 0.5 then mcmove st currT (f (p + 1)) (f (p + 2)) (f (p + 3)) (f (p + 4))
      else mcrotate st currT (f (p + 1)) (f (p + 2)) (f (p + 3))) ∧
    (∀ j d, j ∉ (sweepTrace f st.lab.length p st.lab.length).map Prod.fst →
      (runSteps f currT st.lab.length (st, p)).1.lab.getD j d = st.lab.getD j d) := by
  refine ⟨sweepTrace_length f st.lab.length st.lab.length p,
    sweepTrace_index_lt f st.lab.length hm hf st.lab.length p, ?_, ?_⟩
  · simp only [moveStep]
    split_ifs <;> rfl
  · intro j d hj
    exact runSteps_untouched f currT st.lab.length (st, p) j d hj

/-- Witness for `C4_sweep_with_replacement` on a concrete one-label state
and the constant-zero draw stream. -/
theorem C4_witness :
    (sweepTrace (fun _ => (0 : ℝ)) 1 0 1).length = 1 :=
  (C4_sweep_with_replacement (fun _ => 0) 1
      ⟨[⟨1, 1, 2, 1⟩], [⟨0, 0, 1⟩], [], 10, 10, 0, 0⟩ 0
      (fun _ => by norm_num) (by norm_num)).1

/-- Evaluating two translation-choosing iterations of the trace. -/
theorem sweepTrace_two (f : ℕ → ℝ) (m p : ℕ) (h0 : f p < 0.5) (h1 : f (p + 5) < 0.5) :
    sweepTrace f m p 2 =
      [((⌊f (p + 1) * m⌋).toNat, true), ((⌊f (p + 5 + 1) * m⌋).toNat, true)] := by
  show sweepTrace f m p (Nat.succ (Nat.succ Nat.zero)) = _
  simp only [sweepTrace, h0, h1, if_true, ite_true]

/-- C4 (counterexample): with two labels and the constant-zero draw stream
(legal draws, all in `[0, 1)`), one sweep perturbs label 0 twice and label
1 never: the trace is `[(0, translation), (0, translation)]`, index 1 is
absent, and after running the sweep label 1 still holds its exact initial
record — refuting "each of the `m` labels is perturbed exactly once per
sweep". -/
theorem C4_counterexample :
    sweepTrace (fun _ => (0 : ℝ)) 2 0 2 = [(0, true), (0, true)] ∧
    (1 : ℕ) ∉ (sweepTrace (fun _ => (0 : ℝ)) 2 0 2).map Prod.fst ∧
    (runSteps (fun _ => (0 : ℝ)) 1 2
        (⟨[⟨1, 1, 1, 1⟩, ⟨2, 2, 1, 1⟩], [⟨1, 1, 1⟩, ⟨2, 2, 1⟩], [], 10, 10, 0, 0⟩, 0)).1.lab.getD 1 dLab
      = ⟨2, 2, 1, 1⟩ := by
  have e : sweepTrace (fun _ => (0 : ℝ)) 2 0 2 = [(0, true), (0, true)] := by
    have := sweepTrace_two (fun _ => (0 : ℝ)) 2 0 (by norm_num) (by norm_num)
    simpa using this
  refine ⟨e, ?_, ?_⟩
  · rw [e]; decide
  · have hu := runSteps_untouched (fun _ => (0 : ℝ)) 1 2
      (⟨[⟨1, 1, 1, 1⟩, ⟨2, 2, 1, 1⟩], [⟨1, 1, 1⟩, ⟨2, 2, 1⟩], [], 10, 10, 0, 0⟩, 0) 1 dLab
      (by rw [show (⟨[⟨1, 1, 1, 1⟩, ⟨2, 2, 1, 1⟩], [⟨1, 1, 1⟩, ⟨2, 2, 1⟩], [], 10, 10, 0, 0⟩ :
          LState).lab.length = 2 from rfl, e]; decide)
    rw [hu]; rfl

/-! ## C3: hard-wall clamping is per-coordinate -/

/-- C3 (counterexample): a proposed position `(11, 7)` outside the
`[0,10] × [0,10]` box (since `11 > 10`) moved from `(5, 5)` is NOT
reverted to the pre-move position: the clamp keeps the in-bounds proposed
`y = 7 ≠ 5` and only reverts `x`. -/
theorem C3_counterexample :
    ((10 : ℝ) < 11) ∧ clampX 5 11 10 = 5 ∧ clampX 5 7 10 = 7 ∧ ((7 : ℝ) ≠ 5) := by
  refine ⟨by norm_num, ?_, ?_, by norm_num⟩ <;> · simp only [clampX]; norm_num

/-- C3 (amended): the hard wall clamps each coordinate independently: a
coordinate proposed above the bound or below 0 is reverted to its pre-move
value, while an in-bounds coordinate keeps its proposed value — so an
out-of-bounds proposal is only partially reverted when the other
coordinate stays in bounds. -/
theorem C3_clamp_per_coordinate (vOld vNew bound : ℝ) :
    (0 ≤ vNew → vNew ≤ bound → clampX vOld vNew bound = vNew) ∧
    (bound < vNew → clampX vOld vNew bound = vOld) ∧
    (vNew < 0 → clampX vOld vNew bound = vOld) := by
  refine ⟨fun h0 hb => ?_, fun h => ?_, fun h => ?_⟩ <;>
    · simp only [clampX]; split_ifs <;> linarith

/-- Witness for `C3_clamp_per_coordinate` at a concrete in-bounds input. -/
theorem C3_clamp_witness : clampX 1 2 10 = 2 :=
  (C3_clamp_per_coordinate 1 2 10).1 (by norm_num) (by norm_num)

/-! ## C9: parallel segments in the two intersection primitives -/

/-- C9 (amended): `lineIntersectsLine` treats near-parallel segments
(`|denom| < 0.0001`) as non-intersecting; but the `intersect` primitive has
no tolerance: for an exactly-parallel pair (`denom = 0`), JavaScript
division semantics makes it report an intersection exactly when both
numerators are also zero (the collinear case, where `0/0 = NaN` makes
every comparison false), and no intersection otherwise. -/
theorem C9_parallel_segments (x1 y1 x2 y2 x3 y3 x4 y4 : ℝ) :
    (|(y4 - y3) * (x2 - x1) - (x4 - x3) * (y2 - y1)| < 0.0001 →
      ¬ lineIntersectsLine x1 y1 x2 y2 x3 y3 x4 y4) ∧
    ((y4 - y3) * (x2 - x1) - (x4 - x3) * (y2 - y1) = 0 →
      (intersect x1 x2 x3 x4 y1 y2 y3 y4 ↔
        (x4 - x3) * (y1 - y3) - (y4 - y3) * (x1 - x3) = 0 ∧
        (x2 - x1) * (y1 - y3) - (y2 - y1) * (x1 - x3) = 0)) := by
  constructor
  · intro h hline
    exact absurd hline.1 (not_le.mpr h)
  · intro hd
    simp only [intersect, hd, jsdiv, eq_self_iff_true, if_true]
    rcases eq_or_ne ((x4 - x3) * (y1 - y3) - (y4 - y3) * (x1 - x3)) 0 with ha | ha
    · rcases eq_or_ne ((x2 - x1) * (y1 - y3) - (y2 - y1) * (x1 - x3)) 0 with hb | hb
      · simp [ha, hb, JSNum.ltNum, JSNum.gtNum]
      · rcases hb.lt_or_lt with hb' | hb'
        · simp [ha, hb, hb'.not_lt, JSNum.ltNum, JSNum.gtNum]
        · simp [ha, hb, hb', JSNum.ltNum, JSNum.gtNum]
    · rcases ha.lt_or_lt with ha' | ha'
      · simp [ha, ha'.not_lt, JSNum.ltNum, JSNum.gtNum]
      · simp [ha, ha', JSNum.ltNum, JSNum.gtNum]

/-- Witness for `C9_parallel_segments`: on the horizontal parallel pair
`(0,0)-(1,0)` and `(0,1)-(1,1)`, `lineIntersectsLine` is false and
`intersect` is false (second numerator `-1 ≠ 0`). -/
theorem C9_witness :
    ¬ lineIntersectsLine 0 0 1 0 0 1 1 1 ∧ ¬ intersect 0 1 0 1 0 0 1 1 := by
  constructor
  · exact (C9_parallel_segments 0 0 1 0 0 1 1 1).1 (by norm_num)
  · intro h
    have := ((C9_parallel_segments 0 0 1 0 0 1 1 1).2 (by norm_num)).mp h
    norm_num at this

/-! ## C5 and C10: the Conflict Resolver -/

/-- Head of one stable insertion, in terms of the spec-side step. -/
theorem head_insertByCount (cnt : City → ℕ) (a : City) (acc : List City) :
    (insertByCount cnt a acc).head? = winStep cnt acc.head? a := by
  cases acc with
  | nil => rfl
  | cons b t =>
    simp only [insertByCount, List.head?_cons, winStep]
    split_ifs with h1 h2 h2 <;> first | rfl | omega

/-- The head of the source's stable ascending sort is exactly the
spec-side earliest minimal-count candidate. -/
theorem stableSortByCount_head (cnt : City → ℕ) (l : List City) :
    (stableSortByCount cnt l).head? = specWinner cnt l := by
  rw [stableSortByCount, specWinner]
  suffices h : ∀ acc : List City,
      (List.foldl (fun acc a => insertByCount cnt a acc) acc l).head? =
        List.foldl (winStep cnt) acc.head? l by
    exact h []
  induction l with
  | nil => intro acc; rfl
  | cons a t ih =>
    intro acc
    rw [List.foldl_cons, List.foldl_cons, ih (insertByCount cnt a acc), head_insertByCount]

/-- Stable insertion grows the length by one. -/
theorem insertByCount_length (cnt : City → ℕ) (a : City) (l : List City) :
    (insertByCount cnt a l).length = l.length + 1 := by
  induction l with
  | nil => rfl
  | cons b t ih =>
    simp only [insertByCount]
    split_ifs <;> simp [ih]

/-- The stable sort is a permutation in length. -/
theorem stableSortByCount_length (cnt : City → ℕ) (l : List City) :
    (stableSortByCount cnt l).length = l.length := by
  rw [stableSortByCount]
  suffices h : ∀ acc : List City,
      (List.foldl (fun acc a => insertByCount cnt a acc) acc l).length =
        acc.length + l.length by
    simpa using h []
  induction l with
  | nil => intro acc; simp
  | cons a t ih =>
    intro acc
    rw [List.foldl_cons, ih (insertByCount cnt a acc), insertByCount_length]
    simp only [List.length_cons]
    omega

/-- The spec-side scan from a seeded winner yields a minimal-count element
whose earlier elements all have strictly larger counts. -/
theorem specWinner_go (cnt : City → ℕ) :
    ∀ (l : List City) (w : City),
      ∃ wr, l.foldl (winStep cnt) (some w) = some wr ∧
        cnt wr ≤ cnt w ∧ (∀ c ∈ l, cnt wr ≤ cnt c) ∧
        ∃ pre post, w :: l = pre ++ wr :: post ∧ ∀ c ∈ pre, cnt wr < cnt c := by
  intro l
  induction l with
  | nil =>
    intro w
    exact ⟨w, rfl, le_refl _, fun c hc => absurd hc (List.not_mem_nil c),
      [], [], rfl, fun c hc => absurd hc (List.not_mem_nil c)⟩
  | cons c t ih =>
    intro w
    rw [List.foldl_cons]
    by_cases h : cnt c < cnt w
    · have hstep : winStep cnt (some w) c = some c := by simp [winStep, h]
      rw [hstep]
      obtain ⟨wr, h1, h2, h3, pre, post, hdec, hpre⟩ := ih c
      refine ⟨wr, h1, h2.trans h.le, ?_, w :: pre, post, ?_, ?_⟩
      · intro x hx
        rcases List.mem_cons.mp hx with rfl | hx
        · exact h2
        · exact h3 x hx
      · rw [List.cons_append, ← hdec]
      · intro x hx
        rcases List.mem_cons.mp hx with rfl | hx
        · exact h2.trans_lt h
        · exact hpre x hx
    · have hstep : winStep cnt (some w) c = some w := by simp [winStep, h]
      rw [hstep]
      obtain ⟨wr, h1, h2, h3, pre, post, hdec, hpre⟩ := ih w
      have hcw : cnt w ≤ cnt c := not_lt.mp h
      refine ⟨wr, h1, h2, ?_, ?_⟩
      · intro x hx
        rcases List.mem_cons.mp hx with rfl | hx
        · exact h2.trans hcw
        · exact h3 x hx
      · cases pre with
        | nil =>
          have hw : w = wr := by simpa using congrArg List.head? hdec
          subst hw
          have ht : t = post := by simpa using congrArg List.tail hdec
          subst ht
          exact ⟨[], c :: t, rfl, fun x hx => absurd hx (List.not_mem_nil x)⟩
        | cons p0 ps =>
          have hw : w = p0 := by simpa using congrArg List.head? hdec
          subst hw
          have ht : t = ps ++ wr :: post := by simpa using congrArg List.tail hdec
          refine ⟨w :: c :: ps, post, ?_, ?_⟩
          · rw [ht]; rfl
          · intro x hx
            rcases List.mem_cons.mp hx with rfl | hx
            · exact hpre x (List.mem_cons_self _ _)
            · rcases List.mem_cons.mp hx with rfl | hx
              · exact (hpre w (List.mem_cons_self _ _)).trans_le hcw
              · exact hpre x (List.mem_cons_of_mem _ hx)

/-- The spec-side winner of a nonempty list: minimal count, earliest on
ties. -/
theorem specWinner_spec (cnt : City → ℕ) (l : List City) (h : l ≠ []) :
    ∃ w, specWinner cnt l = some w ∧ (∀ c ∈ l, cnt w ≤ cnt c) ∧
      ∃ pre post, l = pre ++ w :: post ∧ ∀ c ∈ pre, cnt w < cnt c := by
  cases l with
  | nil => exact absurd rfl h
  | cons c t =>
    obtain ⟨wr, h1, h2, h3, pre, post, hdec, hpre⟩ := specWinner_go cnt t c
    refine ⟨wr, h1, ?_, pre, post, hdec, hpre⟩
    intro x hx
    rcases List.mem_cons.mp hx with rfl | hx
    · exact h2
    · exact h3 x hx

/-- The resolver keeps exactly the spec-side winner of a nonempty group. -/
theorem resolveGroup_winner (cnt : City → ℕ) (g : List City) (h : g ≠ []) :
    ∃ w, resolveGroup cnt g = [w] ∧ specWinner cnt g = some w := by
  by_cases h1 : g.length = 1
  · obtain ⟨c, rfl⟩ := List.length_eq_one.mp h1
    exact ⟨c, by simp [resolveGroup], rfl⟩
  · rw [resolveGroup, if_neg h1]
    have hs := stableSortByCount_head cnt g
    cases hsort : stableSortByCount cnt g with
    | nil =>
      exfalso
      have := stableSortByCount_length cnt g
      rw [hsort] at this
      exact h (List.length_eq_zero.mp this.symm)
    | cons w rest =>
      rw [hsort] at hs
      exact ⟨w, rfl, hs.symm⟩

/-- The kept element of a group is one of its members. -/
theorem resolveGroup_subset (cnt : City → ℕ) (g : List City) :
    ∀ c ∈ resolveGroup cnt g, c ∈ g := by
  intro c hc
  rcases eq_or_ne g [] with rfl | hne
  · simp [resolveGroup, stableSortByCount] at hc
  · obtain ⟨w, hw, hspec⟩ := resolveGroup_winner cnt g hne
    rw [hw] at hc
    obtain ⟨w2, h1, _, pre, post, hdec, _⟩ := specWinner_spec cnt g hne
    have : w2 = w := by rw [hspec] at h1; exact (Option.some_injective _ h1).symm
    subst this
    rcases List.mem_singleton.mp hc with rfl
    rw [hdec]
    exact List.mem_append.mpr (Or.inr (List.mem_cons_self _ _))

/-- The resolver keeps at most one element per group. -/
theorem resolveGroup_length_le (cnt : City → ℕ) (g : List City) :
    (resolveGroup cnt g).length ≤ 1 := by
  rw [resolveGroup]
  split_ifs with h
  · simp [List.length_take]
  · cases stableSortByCount cnt g <;> simp

/-- Key list of `addToGroups`: unchanged if the key exists, appended
otherwise. -/
theorem addToGroups_keys (s : String) (c : City) (gs : List (String × List City)) :
    (addToGroups s c gs).map Prod.fst =
      if s ∈ gs.map Prod.fst then gs.map Prod.fst else gs.map Prod.fst ++ [s] := by
  induction gs with
  | nil => simp [addToGroups]
  | cons p rest ih =>
    obtain ⟨k, g⟩ := p
    simp only [addToGroups]
    by_cases hk : k = s
    · subst hk
      rw [if_pos rfl]
      simp
    · rw [if_neg hk]
      simp only [List.map_cons]
      rw [ih]
      by_cases hs : s ∈ rest.map Prod.fst
      · rw [if_pos hs, if_pos (List.mem_cons_of_mem _ hs)]
      · have hns : s ∉ (k :: rest.map Prod.fst) := by
          intro hmem
          rcases List.mem_cons.mp hmem with h | h
          · exact hk h.symm
          · exact hs h
        rw [if_neg hs, if_neg hns]
        simp

/-- Where an element of `addToGroups s c gs` comes from. -/
theorem mem_addToGroups (s : String) (c : City) (gs : List (String × List City))
    (p : String × List City) (hp : p ∈ addToGroups s c gs) :
    p ∈ gs ∨ (p.1 = s ∧ (p.2 = [c] ∨ ∃ g, (s, g) ∈ gs ∧ p.2 = g ++ [c])) := by
  induction gs with
  | nil =>
    simp only [addToGroups, List.mem_singleton] at hp
    subst hp
    exact Or.inr ⟨rfl, Or.inl rfl⟩
  | cons q rest ih =>
    obtain ⟨k, g⟩ := q
    simp only [addToGroups] at hp
    split_ifs at hp with hk
    · subst hk
      rcases List.mem_cons.mp hp with rfl | hp
      · exact Or.inr ⟨rfl, Or.inr ⟨g, List.mem_cons_self _ _, rfl⟩⟩
      · exact Or.inl (List.mem_cons_of_mem _ hp)
    · rcases List.mem_cons.mp hp with rfl | hp
      · exact Or.inl (List.mem_cons_self _ _)
      · rcases ih hp with h | ⟨h1, h2⟩
        · exact Or.inl (List.mem_cons_of_mem _ h)
        · refine Or.inr ⟨h1, ?_⟩
          rcases h2 with h2 | ⟨g2, hg2, he⟩
          · exact Or.inl h2
          · exact Or.inr ⟨g2, List.mem_cons_of_mem _ hg2, he⟩

/-- `addToGroups` preserves the grouping invariant. -/
theorem addToGroups_inv (assign : City → Option String) (P : City → Prop)
    (s : String) (c : City) (gs : List (String × List City))
    (h : GroupsInv assign P gs) (hc : assign c = some s) (hPc : P c) :
    GroupsInv assign P (addToGroups s c gs) := by
  constructor
  · rw [addToGroups_keys]
    split_ifs with hmem
    · exact h.1
    · rw [List.nodup_append]
      refine ⟨h.1, List.nodup_singleton s, ?_⟩
      intro x hx hxs
      rw [List.mem_singleton] at hxs
      subst hxs
      exact hmem hx
  · intro p hp
    rcases mem_addToGroups s c gs p hp with hmem | ⟨h1, h2⟩
    · exact h.2 p hmem
    · rcases h2 with h2 | ⟨g, hg, he⟩
      · refine ⟨by simp [h2], ?_⟩
        intro x hx
        rw [h2, List.mem_singleton] at hx
        subst hx
        exact ⟨h1 ▸ hc, hPc⟩
      · refine ⟨by simp [he], ?_⟩
        intro x hx
        rw [he] at hx
        rcases List.mem_append.mp hx with hx | hx
        · have := (h.2 (s, g) hg).2 x hx
          exact ⟨h1 ▸ this.1, this.2⟩
        · rcases List.mem_singleton.mp hx with rfl
          exact ⟨h1 ▸ hc, hPc⟩

/-- The capital-grouping fold establishes the invariant from any invariant
start, and keeps only unassigned capitals in the unmapped list. -/
theorem groupCapitals_fold_inv (assign : City → Option String) (P : City → Prop) :
    ∀ (caps : List City), (∀ c ∈ caps, P c) →
    ∀ acc : List (String × List City) × List City,
      GroupsInv assign P acc.1 → (∀ c ∈ acc.2, assign c = none ∧ P c) →
      GroupsInv assign P ((caps.foldl (fun acc c =>
          match assign c with
          | some s => (addToGroups s c acc.1, acc.2)
          | none => (acc.1, acc.2 ++ [c])) acc).1) ∧
        (∀ c ∈ (caps.foldl (fun acc c =>
          match assign c with
          | some s => (addToGroups s c acc.1, acc.2)
          | none => (acc.1, acc.2 ++ [c])) acc).2, assign c = none ∧ P c) := by
  intro caps
  induction caps with
  | nil => intro _ acc h1 h2; exact ⟨h1, h2⟩
  | cons c t ih =>
    intro hP acc h1 h2
    rw [List.foldl_cons]
    have hPc : P c := hP c (List.mem_cons_self _ _)
    have hPt : ∀ x ∈ t, P x := fun x hx => hP x (List.mem_cons_of_mem _ hx)
    cases hass : assign c with
    | some s =>
      exact ih hPt (addToGroups s c acc.1, acc.2)
        (addToGroups_inv assign P s c acc.1 h1 hass hPc) h2
    | none =>
      refine ih hPt (acc.1, acc.2 ++ [c]) h1 ?_
      intro x hx
      rcases List.mem_append.mp hx with hx | hx
      · exact h2 x hx
      · rcases List.mem_singleton.mp hx with rfl
        exact ⟨hass, hPc⟩

/-- The grouping of the capital list satisfies the invariant. -/
theorem groupCapitals_inv (assign : City → Option String) (P : City → Prop)
    (caps : List City) (hP : ∀ c ∈ caps, P c) :
    GroupsInv assign P (groupCapitals assign caps).1 ∧
      (∀ c ∈ (groupCapitals assign caps).2, assign c = none ∧ P c) :=
  groupCapitals_fold_inv assign P caps hP ([], [])
    ⟨List.nodup_nil, fun p hp => absurd hp (List.not_mem_nil p)⟩
    (fun c hc => absurd hc (List.not_mem_nil c))

/-- Winners of groups whose key differs from `s` never count towards
region `s`. -/
theorem countP_winners_zero (assign : City → Option String)
    (cnt : City → ℕ) (s : String) (gs : List (String × List City))
    (hkeys : s ∉ gs.map Prod.fst)
    (hmem : ∀ p ∈ gs, ∀ c ∈ p.2, assign c = some p.1) :
    (gs.flatMap (fun p => resolveGroup cnt p.2)).countP
      (fun c => c.isCapital && (assign c == some s)) = 0 := by
  rw [List.countP_eq_zero]
  intro c hc
  obtain ⟨p, hpgs, hcg⟩ := List.mem_flatMap.mp hc
  have hcin := resolveGroup_subset cnt p.2 c hcg
  have hass := hmem p hpgs c hcin
  have hps : p.1 ≠ s := by
    intro he
    exact hkeys (he ▸ List.mem_map_of_mem Prod.fst hpgs)
  simp [hass, hps]

/-- The winner list holds at most one capital per region. -/
theorem countP_winners_le_one (assign : City → Option String)
    (cnt : City → ℕ) (s : String) :
    ∀ gs : List (String × List City),
      (gs.map Prod.fst).Nodup →
      (∀ p ∈ gs, ∀ c ∈ p.2, assign c = some p.1) →
      (gs.flatMap (fun p => resolveGroup cnt p.2)).countP
        (fun c => c.isCapital && (assign c == some s)) ≤ 1 := by
  intro gs
  induction gs with
  | nil => intro _ _; simp
  | cons p rest ih =>
    intro hnd hmem
    rw [List.flatMap_cons, List.countP_append]
    have hnd' : p.1 ∉ rest.map Prod.fst ∧ (rest.map Prod.fst).Nodup := by
      rw [List.map_cons, List.nodup_cons] at hnd
      exact hnd
    by_cases hps : p.1 = s
    · have hz : (rest.flatMap (fun q => resolveGroup cnt q.2)).countP
          (fun c => c.isCapital && (assign c == some s)) = 0 := by
        refine countP_winners_zero assign cnt s rest (hps ▸ hnd'.1) ?_
        intro q hq c hc
        exact hmem q (List.mem_cons_of_mem _ hq) c hc
      rw [hz]
      have := (List.countP_le_length (l := resolveGroup cnt p.2)
        (p := fun c => c.isCapital && (assign c == some s))).trans
        (resolveGroup_length_le cnt p.2)
      omega
    · have hz : (resolveGroup cnt p.2).countP
          (fun c => c.isCapital && (assign c == some s)) = 0 := by
        rw [List.countP_eq_zero]
        intro c hc
        have hass := hmem p (List.mem_cons_self _ _) c (resolveGroup_subset cnt p.2 c hc)
        simp [hass, hps]
      rw [hz]
      simpa using ih hnd'.2 (fun q hq c hc => hmem q (List.mem_cons_of_mem _ hq) c hc)

/-- C5 (confirmed): in every multi-member same-state capital group the
Conflict Resolver keeps exactly the candidate whose display name occurs
fewest times across the entire requested-city set, ties broken by original
input order (first-seen wins); and the resolver's output contains at most
one capital anchor per region. -/
theorem C5_conflict_resolution (assign : City → Option String) (cities : List City) :
    (∀ s : String,
      (dedupCapitals assign cities).countP
        (fun c => c.isCapital && (assign c == some s)) ≤ 1) ∧
    (∀ s g, (s, g) ∈ (groupCapitals assign (cities.filter (fun c => c.isCapital))).1 →
      1 < g.length →
      ∃ w pre post,
        resolveGroup (fun c => nameCount cities c.name) g = [w] ∧
        g = pre ++ w :: post ∧
        (∀ c ∈ g, nameCount cities w.name ≤ nameCount cities c.name) ∧
        (∀ c ∈ pre, nameCount cities w.name < nameCount cities c.name)) := by
  have hinv := groupCapitals_inv assign (fun c => c.isCapital = true)
    (cities.filter (fun c => c.isCapital))
    (fun c hc => (List.mem_filter.mp hc).2)
  constructor
  · intro s
    rw [dedupCapitals]
    rw [List.countP_append, List.countP_append]
    have hz1 : (cities.filter (fun c => !c.isCapital)).countP
        (fun c => c.isCapital && (assign c == some s)) = 0 := by
      rw [List.countP_eq_zero]
      intro c hc
      have := (List.mem_filter.mp hc).2
      simp only [Bool.not_eq_true'] at this
      simp [this]
    have hz2 : ((groupCapitals assign (cities.filter (fun c => c.isCapital))).2).countP
        (fun c => c.isCapital && (assign c == some s)) = 0 := by
      rw [List.countP_eq_zero]
      intro c hc
      have := (hinv.2 c hc).1
      simp [this]
    have hle := countP_winners_le_one assign (fun c => nameCount cities c.name) s
      (groupCapitals assign (cities.filter (fun c => c.isCapital))).1
      hinv.1.1 (fun p hp c hc => ((hinv.1.2 p hp).2 c hc).1)
    omega
  · intro s g hg hlen
    have hne : g ≠ [] := by
      intro he
      rw [he] at hlen
      exact absurd hlen (by simp)
    obtain ⟨w, hw, hspec⟩ :=
      resolveGroup_winner (fun c => nameCount cities c.name) g hne
    obtain ⟨w2, h1, h2, pre, post, hdec, hpre⟩ :=
      specWinner_spec (fun c => nameCount cities c.name) g hne
    have hww : w2 = w := by
      rw [hspec] at h1
      exact (Option.some_injective _ h1).symm
    subst hww
    exact ⟨w2, pre, post, hw, hdec, h2, hpre⟩

/-- Witness for `C5_conflict_resolution`: three capitals ("X", "X", "Y")
all mapped to state "S"; "Y" is the unique name, so it wins. -/
theorem C5_witness :
    ∃ w pre post,
      resolveGroup
        (fun c => nameCount [⟨"X", true⟩, ⟨"X", true⟩, ⟨"Y", true⟩] c.name)
        [⟨"X", true⟩, ⟨"X", true⟩, ⟨"Y", true⟩] = [w] ∧
      ([⟨"X", true⟩, ⟨"X", true⟩, ⟨"Y", true⟩] : List City) = pre ++ w :: post ∧
      (∀ c ∈ ([⟨"X", true⟩, ⟨"X", true⟩, ⟨"Y", true⟩] : List City),
        nameCount [⟨"X", true⟩, ⟨"X", true⟩, ⟨"Y", true⟩] w.name ≤
          nameCount [⟨"X", true⟩, ⟨"X", true⟩, ⟨"Y", true⟩] c.name) ∧
      (∀ c ∈ pre,
        nameCount [⟨"X", true⟩, ⟨"X", true⟩, ⟨"Y", true⟩] w.name <
          nameCount [⟨"X", true⟩, ⟨"X", true⟩, ⟨"Y", true⟩] c.name) :=
  (C5_conflict_resolution (fun _ => some ("S"))
      [⟨"X", true⟩, ⟨"X", true⟩, ⟨"Y", true⟩]).2
    ("S") [⟨"X", true⟩, ⟨"X", true⟩, ⟨"Y", true⟩] (by decide) (by decide)

/-- C10 (confirmed): whenever the deduplication pass runs, its output is
all non-capitals (in their original relative order) followed by the
surviving capitals (unmapped first, then per-region winners); the original
interleaving is lost even without any two-capital region — on the input
`[capital "A" (mapped), non-capital "B"]` the output is `["B", "A"]`. -/
theorem C10_dedup_reorders (assign : City → Option String) (cities : List City) :
    (dedupCapitals assign cities =
      cities.filter (fun c => !c.isCapital) ++
        ((groupCapitals assign (cities.filter (fun c => c.isCapital))).2 ++
          (groupCapitals assign (cities.filter (fun c => c.isCapital))).1.flatMap
            (fun p => resolveGroup (fun c => nameCount cities c.name) p.2))) ∧
    (∀ c ∈ (groupCapitals assign (cities.filter (fun c => c.isCapital))).2 ++
        (groupCapitals assign (cities.filter (fun c => c.isCapital))).1.flatMap
          (fun p => resolveGroup (fun c => nameCount cities c.name) p.2),
      c.isCapital = true) ∧
    (dedupCapitals (fun c => if c.name = "A" then some ("S") else none)
        [⟨"A", true⟩, ⟨"B", false⟩] = [⟨"B", false⟩, ⟨"A", true⟩]) := by
  have hinv := groupCapitals_inv assign (fun c => c.isCapital = true)
    (cities.filter (fun c => c.isCapital))
    (fun c hc => (List.mem_filter.mp hc).2)
  refine ⟨rfl, ?_, by decide⟩
  intro c hc
  rcases List.mem_append.mp hc with hc | hc
  · exact (hinv.2 c hc).2
  · obtain ⟨p, hpgs, hcg⟩ := List.mem_flatMap.mp hc
    exact ((hinv.1.2 p hpgs).2 c
      (resolveGroup_subset (fun c => nameCount cities c.name) p.2 c hcg)).2

/-- Witness for `C10_dedup_reorders`: the surviving capital "A" is indeed
a capital. -/
theorem C10_witness : (⟨"A", true⟩ : City).isCapital = true :=
  (C10_dedup_reorders (fun c => if c.name = "A" then some ("S") else none)
      [⟨"A", true⟩, ⟨"B", false⟩]).2.1 ⟨"A", true⟩ (by decide)

/-! ## C6, C7, C8: candidate generation and the deterministic scorer -/

/-- Unrolling the selection fold by one candidate. -/
theorem pickBest_succ (sc : ℕ → ℝ) (n : ℕ) :
    pickBest sc (n + 1) =
      if sc n < sc (pickBest sc n) then n else pickBest sc n := by
  rw [pickBest, pickBest, List.range_succ, List.foldl_append]
  rfl

/-- The selection fold returns a valid index of minimal score, and on ties
the earliest such index. -/
theorem pickBest_spec (sc : ℕ → ℝ) (n : ℕ) (hn : 0 < n) :
    pickBest sc n < n ∧ (∀ j, j < n → sc (pickBest sc n) ≤ sc j) ∧
      (∀ j, j < pickBest sc n → sc (pickBest sc n) < sc j) := by
  induction n with
  | zero => exact absurd hn (lt_irrefl 0)
  | succ m ih =>
    rcases Nat.eq_zero_or_pos m with rfl | hm
    · have h1 : pickBest sc 1 = 0 := by
        rw [pickBest_succ, show pickBest sc 0 = 0 from rfl, if_neg (lt_irrefl _)]
      rw [h1]
      refine ⟨Nat.zero_lt_one, ?_, fun j hj => absurd hj (Nat.not_lt_zero j)⟩
      intro j hj
      interval_cases j
      exact le_refl _
    · obtain ⟨ih1, ih2, ih3⟩ := ih hm
      rw [pickBest_succ]
      split_ifs with hlt
      · refine ⟨Nat.lt_succ_self m, ?_, ?_⟩
        · intro j hj
          rcases Nat.lt_succ_iff_lt_or_eq.mp hj with hj | rfl
          · exact (hlt.trans_le (ih2 j hj)).le
          · exact le_refl _
        · intro j hj
          exact hlt.trans_le (ih2 j hj)
      · refine ⟨ih1.trans (Nat.lt_succ_self m), ?_, ih3⟩
        intro j hj
        rcases Nat.lt_succ_iff_lt_or_eq.mp hj with hj | rfl
        · exact ih2 j hj
        · exact not_lt.mp hlt

/-- Structure of the sequential pass: it appends one placed label per
input label, and the label at position `k` is placed against the final
positions of the labels before it. -/
theorem placeAllAux_decomp (fas : List FixedA) (ancs : List CAnchor) :
    ∀ (rest placed : List CityLab),
      ∃ tail : List CityLab,
        placeAllAux fas ancs placed rest = placed ++ tail ∧
        tail.length = rest.length ∧
        ∀ k, k < rest.length →
          tail.getD k dCLab =
            placeStep fas (ancs.getD (placed.length + k) dCAnc)
              (placed ++ tail.take k) (rest.getD k dCLab) := by
  intro rest
  induction rest with
  | nil =>
    intro placed
    exact ⟨[], by simp [placeAllAux], rfl, fun k hk => absurd hk (Nat.not_lt_zero k)⟩
  | cons lab rs ih =>
    intro placed
    obtain ⟨tail', h1, h2, h3⟩ :=
      ih (placed ++ [placeStep fas (ancs.getD placed.length dCAnc) placed lab])
    refine ⟨placeStep fas (ancs.getD placed.length dCAnc) placed lab :: tail', ?_, ?_, ?_⟩
    · rw [placeAllAux, h1]
      simp
    · simp [h2]
    · intro k hk
      cases k with
      | zero => simp
      | succ k2 =>
        have hrec := h3 k2 (Nat.lt_of_succ_lt_succ hk)
        rw [List.getD_cons_succ, List.getD_cons_succ, hrec]
        have e1 : (placed ++ [placeStep fas (ancs.getD placed.length dCAnc) placed lab]).length + k2
            = placed.length + (k2 + 1) := by
          simp only [List.length_append, List.length_singleton]
          omega
        have e2 : (placed ++ [placeStep fas (ancs.getD placed.length dCAnc) placed lab]) ++ tail'.take k2
            = placed ++ (placeStep fas (ancs.getD placed.length dCAnc) placed lab :: tail').take (k2 + 1) := by
          rw [List.take_succ_cons, List.append_assoc]
          rfl
        rw [e1, e2]

/-- The whole pass keeps the label count and places label `idx` against
the final positions of the labels before it. -/
theorem placeAll_spec (fas : List FixedA) (ancs : List CAnchor)
    (labs : List CityLab) (idx : ℕ) (hidx : idx < labs.length) :
    (placeAll fas ancs labs).length = labs.length ∧
    (placeAll fas ancs labs).getD idx dCLab =
      placeStep fas (ancs.getD idx dCAnc)
        ((placeAll fas ancs labs).take idx) (labs.getD idx dCLab) := by
  obtain ⟨tail, h1, h2, h3⟩ := placeAllAux_decomp fas ancs labs []
  have hall : placeAll fas ancs labs = tail := by
    rw [placeAll, h1]
    rfl
  rw [hall, h2]
  refine ⟨rfl, ?_⟩
  have := h3 idx hidx
  simpa using this

/-- C6 (confirmed): each label of the deterministic pass is assigned the
candidate of minimal `candScore` (100× fixed-obstacle overlap, 5× overlap
with each earlier label at its final position, flat 50 for centered
indices 4 and 7, 0.5× centre-to-anchor distance), earliest candidate index
winning ties, and both its `{x, y}` and its position index are recorded. -/
theorem C6_deterministic_scorer (fas : List FixedA) (ancs : List CAnchor)
    (labs : List CityLab) (idx : ℕ) (hidx : idx < labs.length)
    (hc : 0 < (labs.getD idx dCLab).candidates.length) :
    ∃ b, b < (labs.getD idx dCLab).candidates.length ∧
      ((placeAll fas ancs labs).getD idx dCLab).x =
        ((labs.getD idx dCLab).candidates.getD b ⟨0, 0⟩).x ∧
      ((placeAll fas ancs labs).getD idx dCLab).y =
        ((labs.getD idx dCLab).candidates.getD b ⟨0, 0⟩).y ∧
      ((placeAll fas ancs labs).getD idx dCLab).posIdx = some b ∧
      (∀ j, j < (labs.getD idx dCLab).candidates.length →
        candScore fas ((placeAll fas ancs labs).take idx) (labs.getD idx dCLab)
            (ancs.getD idx dCAnc) ((labs.getD idx dCLab).candidates.getD b ⟨0, 0⟩) b ≤
          candScore fas ((placeAll fas ancs labs).take idx) (labs.getD idx dCLab)
            (ancs.getD idx dCAnc) ((labs.getD idx dCLab).candidates.getD j ⟨0, 0⟩) j) ∧
      (∀ j, j < b →
        candScore fas ((placeAll fas ancs labs).take idx) (labs.getD idx dCLab)
            (ancs.getD idx dCAnc) ((labs.getD idx dCLab).candidates.getD b ⟨0, 0⟩) b <
          candScore fas ((placeAll fas ancs labs).take idx) (labs.getD idx dCLab)
            (ancs.getD idx dCAnc) ((labs.getD idx dCLab).candidates.getD j ⟨0, 0⟩) j) := by
  obtain ⟨hlen, hidxeq⟩ := placeAll_spec fas ancs labs idx hidx
  have hne : ¬ (labs.getD idx dCLab).candidates.length = 0 := by omega
  have hstep : placeStep fas (ancs.getD idx dCAnc)
      ((placeAll fas ancs labs).take idx) (labs.getD idx dCLab) =
      { labs.getD idx dCLab with
          x := ((labs.getD idx dCLab).candidates.getD
            (pickBest (fun j => candScore fas ((placeAll fas ancs labs).take idx)
              (labs.getD idx dCLab) (ancs.getD idx dCAnc)
              ((labs.getD idx dCLab).candidates.getD j ⟨0, 0⟩) j)
              (labs.getD idx dCLab).candidates.length) ⟨0, 0⟩).x
          y := ((labs.getD idx dCLab).candidates.getD
            (pickBest (fun j => candScore fas ((placeAll fas ancs labs).take idx)
              (labs.getD idx dCLab) (ancs.getD idx dCAnc)
              ((labs.getD idx dCLab).candidates.getD j ⟨0, 0⟩) j)
              (labs.getD idx dCLab).candidates.length) ⟨0, 0⟩).y
          posIdx := some (pickBest (fun j => candScore fas ((placeAll fas ancs labs).take idx)
            (labs.getD idx dCLab) (ancs.getD idx dCAnc)
            ((labs.getD idx dCLab).candidates.getD j ⟨0, 0⟩) j)
            (labs.getD idx dCLab).candidates.length) } := by
    rw [placeStep, if_neg hne]
  obtain ⟨hb1, hb2, hb3⟩ := pickBest_spec
    (fun j => candScore fas ((placeAll fas ancs labs).take idx) (labs.getD idx dCLab)
      (ancs.getD idx dCAnc) ((labs.getD idx dCLab).candidates.getD j ⟨0, 0⟩) j)
    (labs.getD idx dCLab).candidates.length hc
  exact ⟨_, hb1, by rw [hidxeq, hstep], by rw [hidxeq, hstep],
    by rw [hidxeq, hstep], hb2, hb3⟩

/-- Witness for `C6_deterministic_scorer` on one concrete label. -/
theorem C6_witness :
    ∃ b, b < ((([mkCityLab 0 0 1 1 false] : List CityLab)).getD 0 dCLab).candidates.length ∧
      ((placeAll [] [mkCAnchor 0 0 false] [mkCityLab 0 0 1 1 false]).getD 0 dCLab).x =
        ((([mkCityLab 0 0 1 1 false] : List CityLab).getD 0 dCLab).candidates.getD b ⟨0, 0⟩).x ∧
      ((placeAll [] [mkCAnchor 0 0 false] [mkCityLab 0 0 1 1 false]).getD 0 dCLab).y =
        ((([mkCityLab 0 0 1 1 false] : List CityLab).getD 0 dCLab).candidates.getD b ⟨0, 0⟩).y ∧
      ((placeAll [] [mkCAnchor 0 0 false] [mkCityLab 0 0 1 1 false]).getD 0 dCLab).posIdx = some b ∧
      (∀ j, j < (([mkCityLab 0 0 1 1 false] : List CityLab).getD 0 dCLab).candidates.length →
        candScore [] ((placeAll [] [mkCAnchor 0 0 false] [mkCityLab 0 0 1 1 false]).take 0)
            (([mkCityLab 0 0 1 1 false] : List CityLab).getD 0 dCLab)
            (([mkCAnchor 0 0 false] : List CAnchor).getD 0 dCAnc)
            ((([mkCityLab 0 0 1 1 false] : List CityLab).getD 0 dCLab).candidates.getD b ⟨0, 0⟩) b ≤
          candScore [] ((placeAll [] [mkCAnchor 0 0 false] [mkCityLab 0 0 1 1 false]).take 0)
            (([mkCityLab 0 0 1 1 false] : List CityLab).getD 0 dCLab)
            (([mkCAnchor 0 0 false] : List CAnchor).getD 0 dCAnc)
            ((([mkCityLab 0 0 1 1 false] : List CityLab).getD 0 dCLab).candidates.getD j ⟨0, 0⟩) j) ∧
      (∀ j, j < b →
        candScore [] ((placeAll [] [mkCAnchor 0 0 false] [mkCityLab 0 0 1 1 false]).take 0)
            (([mkCityLab 0 0 1 1 false] : List CityLab).getD 0 dCLab)
            (([mkCAnchor 0 0 false] : List CAnchor).getD 0 dCAnc)
            ((([mkCityLab 0 0 1 1 false] : List CityLab).getD 0 dCLab).candidates.getD b ⟨0, 0⟩) b <
          candScore [] ((placeAll [] [mkCAnchor 0 0 false] [mkCityLab 0 0 1 1 false]).take 0)
            (([mkCityLab 0 0 1 1 false] : List CityLab).getD 0 dCLab)
            (([mkCAnchor 0 0 false] : List CAnchor).getD 0 dCAnc)
            ((([mkCityLab 0 0 1 1 false] : List CityLab).getD 0 dCLab).candidates.getD j ⟨0, 0⟩) j) :=
  C6_deterministic_scorer [] [mkCAnchor 0 0 false] [mkCityLab 0 0 1 1 false] 0
    (by norm_num) (by show (0 : ℕ) < 8; norm_num)

/-- With no fixed obstacles and no earlier labels the score reduces to the
centered penalty plus the distance penalty. -/
theorem candScore_empty (lab : CityLab) (anc : CAnchor) (j : ℕ) :
    candScore [] [] lab anc (lab.candidates.getD j ⟨0, 0⟩) j = distPenalty lab anc j := by
  simp [candScore, distPenalty]

/-- C7 (amended): with zero fixed obstacles and a single label, the
deterministic scorer picks the candidate minimizing the distance penalty
PLUS the flat `+50` centered-position penalty for indices 4 and 7 (ties
broken by candidate input order) — which need not be the candidate closest
to the anchor. -/
theorem C7_single_label_minimizes_penalty (cx cy bw bh : ℝ) (cap : Bool) :
    ∃ b, b < 8 ∧
      ((placeAll [] [mkCAnchor cx cy cap] [mkCityLab cx cy bw bh cap]).getD 0 dCLab).posIdx
        = some b ∧
      (∀ j, j < 8 →
        distPenalty (mkCityLab cx cy bw bh cap) (mkCAnchor cx cy cap) b ≤
          distPenalty (mkCityLab cx cy bw bh cap) (mkCAnchor cx cy cap) j) ∧
      (∀ j, j < b →
        distPenalty (mkCityLab cx cy bw bh cap) (mkCAnchor cx cy cap) b <
          distPenalty (mkCityLab cx cy bw bh cap) (mkCAnchor cx cy cap) j) := by
  obtain ⟨hlen, hidxeq⟩ := placeAll_spec [] [mkCAnchor cx cy cap] [mkCityLab cx cy bw bh cap] 0
    (by norm_num)
  have hp0 : (placeAll [] [mkCAnchor cx cy cap] [mkCityLab cx cy bw bh cap]).take 0 = [] := rfl
  have hgl : ([mkCityLab cx cy bw bh cap] : List CityLab).getD 0 dCLab
      = mkCityLab cx cy bw bh cap := rfl
  have hga : ([mkCAnchor cx cy cap] : List CAnchor).getD 0 dCAnc = mkCAnchor cx cy cap := rfl
  rw [hp0, hgl, hga] at hidxeq
  have hcl : (mkCityLab cx cy bw bh cap).candidates.length = 8 := rfl
  have hne : ¬ (mkCityLab cx cy bw bh cap).candidates.length = 0 := by rw [hcl]; norm_num
  have hsc : ∀ j, candScore [] [] (mkCityLab cx cy bw bh cap) (mkCAnchor cx cy cap)
      ((mkCityLab cx cy bw bh cap).candidates.getD j ⟨0, 0⟩) j =
      distPenalty (mkCityLab cx cy bw bh cap) (mkCAnchor cx cy cap) j :=
    fun j => candScore_empty (mkCityLab cx cy bw bh cap) (mkCAnchor cx cy cap) j
  obtain ⟨hb1, hb2, hb3⟩ := pickBest_spec
    (fun j => candScore [] [] (mkCityLab cx cy bw bh cap) (mkCAnchor cx cy cap)
      ((mkCityLab cx cy bw bh cap).candidates.getD j ⟨0, 0⟩) j)
    (mkCityLab cx cy bw bh cap).candidates.length (by rw [hcl]; norm_num)
  refine ⟨_, hcl ▸ hb1, ?_, ?_, ?_⟩
  · rw [hidxeq, placeStep, if_neg hne]
    rfl
  · intro j hj
    have := hb2 j (by rw [hcl]; exact hj)
    rwa [hsc, hsc] at this
  · intro j hj
    have := hb3 j hj
    rwa [hsc, hsc] at this

/-- Witness for `C7_single_label_minimizes_penalty` at a concrete label. -/
theorem C7_witness :
    ∃ b, b < 8 ∧
      ((placeAll [] [mkCAnchor 0 0 false] [mkCityLab 0 0 2 2 false]).getD 0 dCLab).posIdx
        = some b ∧
      (∀ j, j < 8 →
        distPenalty (mkCityLab 0 0 2 2 false) (mkCAnchor 0 0 false) b ≤
          distPenalty (mkCityLab 0 0 2 2 false) (mkCAnchor 0 0 false) j) ∧
      (∀ j, j < b →
        distPenalty (mkCityLab 0 0 2 2 false) (mkCAnchor 0 0 false) b <
          distPenalty (mkCityLab 0 0 2 2 false) (mkCAnchor 0 0 false) j) :=
  C7_single_label_minimizes_penalty 0 0 2 2 false

/-- C7 (counterexample): for the anchor `(100, 100)` (non-capital) with a
measured box `2 × 16`, candidate 7 (centered below) sits exactly on the
anchor — strictly closer than every other candidate — yet the scorer does
not pick index 7: its flat `+50` centered penalty (score 50) loses to
candidate 5 (score 0.9).  So "the scorer picks the closest of the 8
candidates" is false. -/
theorem C7_counterexample :
    candDist (mkCityLab 100 100 2 16 false) (mkCAnchor 100 100 false)
        ((mkCityLab 100 100 2 16 false).candidates.getD 7 ⟨0, 0⟩) = 0 ∧
    (0 < candDist (mkCityLab 100 100 2 16 false) (mkCAnchor 100 100 false)
        ((mkCityLab 100 100 2 16 false).candidates.getD 0 ⟨0, 0⟩)) ∧
    (0 < candDist (mkCityLab 100 100 2 16 false) (mkCAnchor 100 100 false)
        ((mkCityLab 100 100 2 16 false).candidates.getD 1 ⟨0, 0⟩)) ∧
    (0 < candDist (mkCityLab 100 100 2 16 false) (mkCAnchor 100 100 false)
        ((mkCityLab 100 100 2 16 false).candidates.getD 2 ⟨0, 0⟩)) ∧
    (0 < candDist (mkCityLab 100 100 2 16 false) (mkCAnchor 100 100 false)
        ((mkCityLab 100 100 2 16 false).candidates.getD 3 ⟨0, 0⟩)) ∧
    (0 < candDist (mkCityLab 100 100 2 16 false) (mkCAnchor 100 100 false)
        ((mkCityLab 100 100 2 16 false).candidates.getD 4 ⟨0, 0⟩)) ∧
    (0 < candDist (mkCityLab 100 100 2 16 false) (mkCAnchor 100 100 false)
        ((mkCityLab 100 100 2 16 false).candidates.getD 5 ⟨0, 0⟩)) ∧
    (0 < candDist (mkCityLab 100 100 2 16 false) (mkCAnchor 100 100 false)
        ((mkCityLab 100 100 2 16 false).candidates.getD 6 ⟨0, 0⟩)) ∧
    ((placeAll [] [mkCAnchor 100 100 false] [mkCityLab 100 100 2 16 false]).getD 0 dCLab).posIdx
      ≠ some 7 := by
  have hw : (mkCityLab 100 100 2 16 false).width = 2 := rfl
  have hh : (mkCityLab 100 100 2 16 false).height = 16 := rfl
  have hax : (mkCAnchor 100 100 false).x = 100 := rfl
  have hay : (mkCAnchor 100 100 false).y = 100 := rfl
  have h7 : candDist (mkCityLab 100 100 2 16 false) (mkCAnchor 100 100 false)
      ((mkCityLab 100 100 2 16 false).candidates.getD 7 ⟨0, 0⟩) = 0 := by
    show candDist _ _ (⟨100 - 2 / 2, 100 + 8⟩ : Cand) = 0
    rw [candDist, hw, hh, hax, hay]
    norm_num
  have h5 : candDist (mkCityLab 100 100 2 16 false) (mkCAnchor 100 100 false)
      ((mkCityLab 100 100 2 16 false).candidates.getD 5 ⟨0, 0⟩) = 1.8 := by
    show candDist _ _ (⟨100 + (0 + 1) * 0.8, 100 + 8⟩ : Cand) = 1.8
    rw [candDist, hw, hh]
    rw [show ((100 + (0 + 1) * 0.8 + 2 / 2 - (mkCAnchor 100 100 false).x) *
        (100 + (0 + 1) * 0.8 + 2 / 2 - (mkCAnchor 100 100 false).x) +
        (100 + 8 - 16 / 2 - (mkCAnchor 100 100 false).y) *
        (100 + 8 - 16 / 2 - (mkCAnchor 100 100 false).y) : ℝ) = 1.8 ^ 2 by
      show ((100 + (0 + 1) * 0.8 + 2 / 2 - 100) * (100 + (0 + 1) * 0.8 + 2 / 2 - 100) +
        (100 + 8 - 16 / 2 - 100) * (100 + 8 - 16 / 2 - 100) : ℝ) = 1.8 ^ 2
      norm_num]
    exact Real.sqrt_sq (by norm_num)
  refine ⟨h7, ?_, ?_, ?_, ?_, ?_, ?_, ?_, ?_⟩
  · show 0 < candDist _ _ (⟨100 + (0 + 1) * 0.8 + 1, 100 + 3⟩ : Cand)
    rw [candDist, hw, hh]
    apply Real.sqrt_pos.mpr
    show (0 : ℝ) < (100 + (0 + 1) * 0.8 + 1 + 2 / 2 - 100) * (100 + (0 + 1) * 0.8 + 1 + 2 / 2 - 100)
      + (100 + 3 - 16 / 2 - 100) * (100 + 3 - 16 / 2 - 100)
    norm_num
  · show 0 < candDist _ _ (⟨100 - 2 - (0 + 1) * 0.8 - 1, 100 + 3⟩ : Cand)
    rw [candDist, hw, hh]
    apply Real.sqrt_pos.mpr
    show (0 : ℝ) < (100 - 2 - (0 + 1) * 0.8 - 1 + 2 / 2 - 100) * (100 - 2 - (0 + 1) * 0.8 - 1 + 2 / 2 - 100)
      + (100 + 3 - 16 / 2 - 100) * (100 + 3 - 16 / 2 - 100)
    norm_num
  · show 0 < candDist _ _ (⟨100 + (0 + 1) * 0.8, 100 - 4⟩ : Cand)
    rw [candDist, hw, hh]
    apply Real.sqrt_pos.mpr
    show (0 : ℝ) < (100 + (0 + 1) * 0.8 + 2 / 2 - 100) * (100 + (0 + 1) * 0.8 + 2 / 2 - 100)
      + (100 - 4 - 16 / 2 - 100) * (100 - 4 - 16 / 2 - 100)
    norm_num
  · show 0 < candDist _ _ (⟨100 - 2 - (0 + 1) * 0.8, 100 - 4⟩ : Cand)
    rw [candDist, hw, hh]
    apply Real.sqrt_pos.mpr
    show (0 : ℝ) < (100 - 2 - (0 + 1) * 0.8 + 2 / 2 - 100) * (100 - 2 - (0 + 1) * 0.8 + 2 / 2 - 100)
      + (100 - 4 - 16 / 2 - 100) * (100 - 4 - 16 / 2 - 100)
    norm_num
  · show 0 < candDist _ _ (⟨100 - 2 / 2, 100 - 4⟩ : Cand)
    rw [candDist, hw, hh]
    apply Real.sqrt_pos.mpr
    show (0 : ℝ) < (100 - 2 / 2 + 2 / 2 - 100) * (100 - 2 / 2 + 2 / 2 - 100)
      + (100 - 4 - 16 / 2 - 100) * (100 - 4 - 16 / 2 - 100)
    norm_num
  · rw [h5]; norm_num
  · show 0 < candDist _ _ (⟨100 - 2 - (0 + 1) * 0.8, 100 + 8⟩ : Cand)
    rw [candDist, hw, hh]
    apply Real.sqrt_pos.mpr
    show (0 : ℝ) < (100 - 2 - (0 + 1) * 0.8 + 2 / 2 - 100) * (100 - 2 - (0 + 1) * 0.8 + 2 / 2 - 100)
      + (100 + 8 - 16 / 2 - 100) * (100 + 8 - 16 / 2 - 100)
    norm_num
  · -- the scorer does not pick index 7
    obtain ⟨hlen, hidxeq⟩ := placeAll_spec [] [mkCAnchor 100 100 false]
      [mkCityLab 100 100 2 16 false] 0 (by norm_num)
    have hp0 : (placeAll [] [mkCAnchor 100 100 false] [mkCityLab 100 100 2 16 false]).take 0
        = [] := rfl
    have hgl : ([mkCityLab 100 100 2 16 false] : List CityLab).getD 0 dCLab
        = mkCityLab 100 100 2 16 false := rfl
    have hga : ([mkCAnchor 100 100 false] : List CAnchor).getD 0 dCAnc
        = mkCAnchor 100 100 false := rfl
    rw [hp0, hgl, hga] at hidxeq
    have hne : ¬ (mkCityLab 100 100 2 16 false).candidates.length = 0 := by
      show ¬ (8 : ℕ) = 0
      norm_num
    intro hcontra
    rw [hidxeq] at hcontra
    rw [placeStep, if_neg hne] at hcontra
    have hb : pickBest
        (fun j => candScore [] [] (mkCityLab 100 100 2 16 false) (mkCAnchor 100 100 false)
          ((mkCityLab 100 100 2 16 false).candidates.getD j ⟨0, 0⟩) j)
        (mkCityLab 100 100 2 16 false).candidates.length = 7 :=
      Option.some_injective _ hcontra
    have hmin := (pickBest_spec
      (fun j => candScore [] [] (mkCityLab 100 100 2 16 false) (mkCAnchor 100 100 false)
        ((mkCityLab 100 100 2 16 false).candidates.getD j ⟨0, 0⟩) j)
      (mkCityLab 100 100 2 16 false).candidates.length (by show (0 : ℕ) < 8; norm_num)).2.1
    have h75 := hmin 5 (by show (5 : ℕ) < 8; norm_num)
    rw [hb] at h75
    rw [candScore_empty, candScore_empty] at h75
    rw [distPenalty, distPenalty, h5, h7] at h75
    norm_num at h75

/-- C8 (amended): the candidate offsets do NOT clear the stored marker
footprint: for every anchor, whenever the measured box has positive width
and height above 1, the right-of-marker candidate (index 0, offset
`(gap + markerRadius) * 0.8`) overlaps the stored square footprint of
radius `2·markerRadius` with positive area. -/
theorem C8_candidate_overlaps_footprint (cx cy bw bh : ℝ) (cap : Bool)
    (hbw : 0 < bw) (hbh : 1 < bh) :
    0 < overlapArea ((genCandidates cx cy bw cap).getD 0 ⟨0, 0⟩).x
        (((genCandidates cx cy bw cap).getD 0 ⟨0, 0⟩).y - bh)
        (((genCandidates cx cy bw cap).getD 0 ⟨0, 0⟩).x + bw)
        ((genCandidates cx cy bw cap).getD 0 ⟨0, 0⟩).y
        (mkCAnchor cx cy cap).bboxX (mkCAnchor cx cy cap).bboxY
        ((mkCAnchor cx cy cap).bboxX + (mkCAnchor cx cy cap).bboxW)
        ((mkCAnchor cx cy cap).bboxY + (mkCAnchor cx cy cap).bboxH) := by
  cases cap
  · show 0 < overlapArea (cx + (0 + 1) * 0.8 + 1) (cy + 3 - bh) (cx + (0 + 1) * 0.8 + 1 + bw)
      (cy + 3) (cx - 2) (cy - 2) (cx - 2 + 2 * 2) (cy - 2 + 2 * 2)
    rw [overlapArea]
    apply mul_pos
    · refine lt_max_iff.mpr (Or.inr ?_)
      rw [sub_pos, lt_min_iff]
      constructor <;> rw [max_lt_iff] <;> constructor <;> linarith
    · refine lt_max_iff.mpr (Or.inr ?_)
      rw [sub_pos, lt_min_iff]
      constructor <;> rw [max_lt_iff] <;> constructor <;> linarith
  · show 0 < overlapArea (cx + (0 + 2) * 0.8 + 1) (cy + 3 - bh) (cx + (0 + 2) * 0.8 + 1 + bw)
      (cy + 3) (cx - 4) (cy - 4) (cx - 4 + 2 * 4) (cy - 4 + 2 * 4)
    rw [overlapArea]
    apply mul_pos
    · refine lt_max_iff.mpr (Or.inr ?_)
      rw [sub_pos, lt_min_iff]
      constructor <;> rw [max_lt_iff] <;> constructor <;> linarith
    · refine lt_max_iff.mpr (Or.inr ?_)
      rw [sub_pos, lt_min_iff]
      constructor <;> rw [max_lt_iff] <;> constructor <;> linarith

/-- Witness for `C8_candidate_overlaps_footprint` at a concrete anchor and
box. -/
theorem C8_witness :
    0 < overlapArea ((genCandidates 0 0 1 false).getD 0 ⟨0, 0⟩).x
        (((genCandidates 0 0 1 false).getD 0 ⟨0, 0⟩).y - 2)
        (((genCandidates 0 0 1 false).getD 0 ⟨0, 0⟩).x + 1)
        ((genCandidates 0 0 1 false).getD 0 ⟨0, 0⟩).y
        (mkCAnchor 0 0 false).bboxX (mkCAnchor 0 0 false).bboxY
        ((mkCAnchor 0 0 false).bboxX + (mkCAnchor 0 0 false).bboxW)
        ((mkCAnchor 0 0 false).bboxY + (mkCAnchor 0 0 false).bboxH) :=
  C8_candidate_overlaps_footprint 0 0 1 2 false (by norm_num) (by norm_num)

/-- C8 (counterexample): at the anchor `(100, 100)` (non-capital, stored
footprint `[98,102]²`) with a measured `2 × 8` box, candidate 0 produces
the rectangle `[101.8, 103.8] × [95, 103]`, which overlaps the stored
footprint with area `0.2 × 4 = 0.8 > 0` — refuting "no candidate overlaps
the anchor's stored marker footprint". -/
theorem C8_counterexample :
    0 < overlapArea ((genCandidates 100 100 2 false).getD 0 ⟨0, 0⟩).x
        (((genCandidates 100 100 2 false).getD 0 ⟨0, 0⟩).y - 8)
        (((genCandidates 100 100 2 false).getD 0 ⟨0, 0⟩).x + 2)
        ((genCandidates 100 100 2 false).getD 0 ⟨0, 0⟩).y
        (mkCAnchor 100 100 false).bboxX (mkCAnchor 100 100 false).bboxY
        ((mkCAnchor 100 100 false).bboxX + (mkCAnchor 100 100 false).bboxW)
        ((mkCAnchor 100 100 false).bboxY + (mkCAnchor 100 100 false).bboxH) := by
  show 0 < overlapArea (100 + (0 + 1) * 0.8 + 1) (100 + 3 - 8) (100 + (0 + 1) * 0.8 + 1 + 2)
    (100 + 3) (100 - 2) (100 - 2) (100 - 2 + 2 * 2) (100 - 2 + 2 * 2)
  rw [overlapArea]
  norm_num [min_def, max_def]

/-- C9 (counterexample): for the exactly-parallel (indeed identical)
segments `(0,0)-(1,0)` and `(0,0)-(1,0)` the denominator is `0` — well
within the `0.0001` tolerance — yet `intersect` reports an intersection:
`0/0` is `NaN` in JavaScript and every `NaN` comparison is false, so the
`!(mua < 0 || mua > 1 || mub < 0 || mub > 1)` test passes. -/
theorem C9_counterexample :
    intersect 0 1 0 1 0 0 0 0 ∧
    |((0 : ℝ) - 0) * (1 - 0) - ((1 : ℝ) - 0) * (0 - 0)| < 0.0001 := by
  constructor
  · simp only [intersect, jsdiv, JSNum.ltNum, JSNum.gtNum]
    norm_num
  · norm_num

end MapGen
